import Mathlib

/-!
Verification development for the crawl core of the repository
(`app/crawler.py`).  The concurrent coroutine `crawl_job` and its helpers
are embedded as a small-step state machine: every `await` in the Python
source is a suspension point, the code between two suspension points is
one atomic step, and a run is driven by an explicit list of scheduler
actions (run one step of the dispatch loop, run one step of a given
fetch task, advance the clock, set the external cancellation flag).
External collaborators (the Crawl4AI fetcher, BeautifulSoup parsing,
the robots parser, the network) are supplied by a `World` of oracle
functions, as the specification treats them as out-of-scope
collaborators.
-/

namespace Crawl

/-! ## URL helpers

Models of the stdlib collaborators `urllib.parse.urlparse`, `urljoin`
and `urldefrag`, restricted to the behavior the source relies on: a URL
is absolute when it starts with a scheme (letters, digits, `+`, `-`,
`.`) followed by the separator; `urldefrag` cuts the URL at its first
`#`; `urljoin` keeps an absolute href, resolves a `//`-href against the
base scheme, a `/`-href against the base origin, and any other href
against the base directory (the base up to its last `/`). -/

def schemeChar (c : Char) : Bool :=
  c.isAlpha || c.isDigit || c = '+' || c = '-' || c = '.'

def sepChars : List Char := [':', '/', '/']

/-- Split a character list into a scheme part and the remainder after
the `://` separator, when the list has that shape. -/
def splitScheme (l : List Char) : Option (List Char × List Char) :=
  match l.dropWhile schemeChar with
  | ':' :: '/' :: '/' :: r =>
      if (l.takeWhile schemeChar).isEmpty then none
      else some (l.takeWhile schemeChar, r)
  | _ => none

def isAbsolute (u : String) : Bool := (splitScheme u.data).isSome

def schemeOf (u : String) : String :=
  match splitScheme u.data with
  | some (pre, _) => String.mk pre
  | none => ""

def hostOf (u : String) : String :=
  match splitScheme u.data with
  | some (_, r) => String.mk (r.takeWhile (fun c => c ≠ '/'))
  | none => ""

def originOf (u : String) : String :=
  schemeOf u ++ "://" ++ hostOf u

/-- The base URL up to and including its last `/`. -/
def dirOf (u : String) : String :=
  String.mk ((u.data.reverse.dropWhile (fun c => c ≠ '/')).reverse)

def startsSlashSlash (u : String) : Bool :=
  match u.data with
  | '/' :: '/' :: _ => true
  | _ => false

def startsSlash (u : String) : Bool :=
  match u.data with
  | '/' :: _ => true
  | _ => false

/-- Model of `urllib.parse.urljoin` on the case split the development
needs. -/
def urljoin (base href : String) : String :=
  if href = "" then base
  else if isAbsolute href then href
  else if startsSlashSlash href then schemeOf base ++ ":" ++ href
  else if startsSlash href then originOf base ++ href
  else dirOf base ++ href

/-- Model of `urllib.parse.urldefrag`, first component: the URL cut at
its first `#`. -/
def urldefragUrl (u : String) : String :=
  String.mk (u.data.takeWhile (fun c => c ≠ '#'))

def noFrag (u : String) : Bool := u.data.all (fun c => c ≠ '#')

def hasPre (pat : List Char) (s : String) : Bool := pat.isPrefixOf s.data

/-- Model of Python `str.strip()`: drop whitespace from both ends. -/
def pyStrip (s : String) : String :=
  String.mk
    (((s.data.dropWhile (fun c => c.isWhitespace)).reverse.dropWhile
      (fun c => c.isWhitespace)).reverse)

/-! ## Pure source functions of `app/crawler.py` -/

/-- `in_scope` (crawler.py lines 47-53): the deny loop returns `False`
on the first deny match; an empty allow list admits everything;
otherwise at least one allow pattern must match.  Compiled regex
patterns are embedded as boolean predicates on the URL. -/
def in_scope (url : String) (allow deny : List (String → Bool)) : Bool :=
  if deny.any (fun d => d url) then false
  else if allow.isEmpty then true
  else allow.any (fun a => a url)

/-- `same_domain` (crawler.py lines 55-56): membership of the URL's
netloc in the set of seed hosts. -/
def same_domain (url : String) (seed_hosts : List String) : Bool :=
  seed_hosts.contains (hostOf url)

/-- `extract_links` (crawler.py lines 58-71).  `hrefs` stands for the
stripped-to-be `href` attributes that the external BeautifulSoup
collaborator yields from the page markup, in document order; the
function trims each, skips `mailto:`/`javascript:` hrefs, resolves
against the base URL and strips the fragment.  (The source's
`try/except` around the resolution is dead in the model because the
modelled `urljoin` is total.) -/
def extract_links (base_url : String) (hrefs : List String) : List String :=
  hrefs.filterMap (fun h0 =>
    if hasPre ("mailto:".data) (pyStrip h0) ||
        hasPre ("javascript:".data) (pyStrip h0) then none
    else some (urldefragUrl (urljoin base_url (pyStrip h0))))

/-- `result.error_message or "Unknown crawl error"` (crawler.py line
157): Python `or` replaces a missing or empty message. -/
def errorText (m : Option String) : String :=
  match m with
  | none => "Unknown crawl error"
  | some s => if s = "" then "Unknown crawl error" else s

/-- `request.get("concurrency") or 2` (crawler.py line 103): Python
`or` replaces a missing or zero (falsy) configured concurrency by the
default 2. -/
def resolveConcurrency (c : Option Nat) : Nat :=
  match c with
  | none => 2
  | some 0 => 2
  | some (n + 1) => n + 1

/-- `robots_url = f"{scheme}://{host}/robots.txt"` (crawler.py line
22). -/
def robotsUrl (u : String) : String :=
  schemeOf u ++ "://" ++ hostOf u ++ "/robots.txt"

/-! ## Data model -/

/-- One row of the `results` table, i.e. the dictionary passed to
`insert_result` (crawler.py lines 170-182 and 190-203). -/
structure PageRecord where
  url : String
  statusCode : Nat
  depth : Nat
  fetchedAt : Nat
  contentType : Option String
  title : Option String
  text : Option String
  html : Option String
  markdown : Option String
  links : List String
  extracted : List (String × List String)
  error : Option String
deriving DecidableEq, Repr

/-- A successful answer of the Crawl4AI fetch collaborator. -/
structure FetchSuccess where
  html : String
  markdown : String
deriving DecidableEq, Repr

/-- Outcome of `crawler.arun`: success, a result with
`success = False` carrying an optional `error_message`, or a raised
exception. -/
inductive FetchOutcome where
  | ok (pg : FetchSuccess)
  | fail (msg : Option String)
  | raised (msg : String)
deriving DecidableEq, Repr

/-- The external collaborators: the fetch primitive, the robots
endpoint, the robots parser decision (`is_allowed` on nonempty parsed
text), and the BeautifulSoup-derived views of markup (anchor hrefs,
title, visible text, selector extraction). -/
structure World where
  fetch : String → FetchOutcome
  robots : String → Except String String
  robotsDecide : String → String → String → Bool
  anchors : String → List String
  titleOf : String → Option String
  textOf : String → Option String
  extractSel : String → List (String × List String)

/-- Model of `RobotExclusionRulesParser`: a cached policy is the text
it parsed; the empty policy (also the `parser.parse("")` fallback of
crawler.py line 29) allows every URL, a documented behavior of the
library that the source comment relies on. -/
def is_allowed (w : World) (txt ua url : String) : Bool :=
  if txt = "" then true else w.robotsDecide txt ua url

/-- The crawl specification after the field extraction of crawler.py
lines 91-106.  Selector configuration is folded into the
`World.extractSel` collaborator. -/
structure SpecC where
  seeds : List String
  allow : List (String → Bool)
  deny : List (String → Bool)
  maxDepth : Option Nat
  maxPages : Option Nat
  maxDuration : Option Nat
  concurrency : Option Nat
  userAgent : String
  respectRobots : Bool
  sameDomainOnly : Bool

def seedHosts (sp : SpecC) : List String := sp.seeds.map hostOf

def depthExceeded (sp : SpecC) (d : Nat) : Bool :=
  match sp.maxDepth with
  | some m => decide (d > m)
  | none => false

def pagesReached (sp : SpecC) (p : Nat) : Bool :=
  match sp.maxPages with
  | some P => decide (p ≥ P)
  | none => false

def durExceeded (sp : SpecC) (c : Nat) : Bool :=
  match sp.maxDuration with
  | some D => decide (c > D)
  | none => false

/-- Job status values of the `jobs` table. -/
inductive JobStatus where
  | queued
  | running
  | completed
  | failed
  | cancelled
deriving DecidableEq, Repr

/-- The aggregate stats persisted at the end of `crawl_job`
(crawler.py lines 237-242). -/
structure Stats where
  pages : Nat
  seenCount : Nat
  durationSeconds : Nat
deriving DecidableEq, Repr

/-- Suspension points of the `fetch` coroutine (crawler.py lines
127-206): not yet started; blocked in `sem.acquire`; awaiting the
robots.txt response; awaiting `crawler.arun`; awaiting
`insert_result` with the record to persist (and whether the success
continuation — counter increment and link enqueue — still runs); or
finished. -/
inductive Pc where
  | start
  | waitSem
  | robotsWait
  | fetchWait
  | insertWait (rec : PageRecord) (isOk : Bool)
  | done
deriving DecidableEq, Repr

/-- One task created by `asyncio.create_task(fetch(url, depth))`. -/
structure CrawlTask where
  url : String
  depth : Nat
  pc : Pc
deriving DecidableEq, Repr

/-- Position of the job controller: the `while q` dispatch loop, the
final `asyncio.gather`, or past the stats update. -/
inductive MainPc where
  | loop
  | gathering
  | finished
deriving DecidableEq, Repr

/-- The full mutable state of one job: frontier `q`, `seen` set,
`pages` counter, elapsed clock, cancellation flag, free semaphore
slots, the spawned tasks, the per-host robots cache (newest entry
first), the persisted results, the controller position, the job
status and persisted stats, plus two event logs used only to state
properties: the hosts for which a robots.txt fetch was started and
the URLs handed to the fetch collaborator. -/
structure St where
  q : List (String × Nat)
  seen : List String
  pages : Nat
  clock : Nat
  cancelled : Bool
  semAvail : Nat
  tasks : List CrawlTask
  robotsCache : List (String × String)
  robotsLog : List String
  fetchLog : List String
  results : List PageRecord
  mainPc : MainPc
  status : JobStatus
  stats : Option Stats
deriving Repr

/-- Modelled from the spec: the status transition of the job runner is
absent from `src` (`crawl_job` never writes the status column and has
no caller in the repository); section 4.6 of the specification says
the job transitions to cancelled when the external cancellation signal
was observed before natural completion and to completed otherwise. -/
def terminalStatus (cancelled : Bool) : JobStatus :=
  if cancelled then .cancelled else .completed

/-- Initial state of `crawl_job` (crawler.py lines 111-125): the
frontier holds the seeds verbatim at depth 0, and the runner has set
the job running (modelled from the spec, see `terminalStatus`). -/
def initSt (sp : SpecC) : St :=
  { q := sp.seeds.map (fun s => (s, 0))
    seen := []
    pages := 0
    clock := 0
    cancelled := false
    semAvail := resolveConcurrency sp.concurrency
    tasks := []
    robotsCache := []
    robotsLog := []
    fetchLog := []
    results := []
    mainPc := .loop
    status := .running
    stats := none }

/-- The record persisted on a successful fetch (crawler.py lines
159-182). -/
def successRecord (w : World) (url : String) (depth clk : Nat)
    (pg : FetchSuccess) : PageRecord :=
  { url := url
    statusCode := 200
    depth := depth
    fetchedAt := clk
    contentType := some "text/html"
    title := w.titleOf pg.html
    text := w.textOf pg.html
    html := some pg.html
    markdown := some pg.markdown
    links := extract_links url (w.anchors pg.html)
    extracted := w.extractSel pg.html
    error := none }

/-- The record persisted on a failed fetch (crawler.py lines
190-203). -/
def failRecord (url : String) (depth clk : Nat) (e : String) : PageRecord :=
  { url := url
    statusCode := 0
    depth := depth
    fetchedAt := clk
    contentType := none
    title := none
    text := none
    html := none
    markdown := none
    links := []
    extracted := []
    error := some e }

def lookupCache (h : String) (l : List (String × String)) : Option String :=
  (l.find? (fun e => e.1 == h)).map (fun e => e.2)

def setTask (s : St) (i : Nat) (t : CrawlTask) : St :=
  { s with tasks := s.tasks.set i t }

/-- The task suspends into `crawler.arun`; the URL is now being
fetched.  The optional `asyncio.sleep(delay_ms / 1000)` of crawler.py
line 149 is a suspension with no effect on shared state, so it is
folded into this one: other agents can interleave before the fetch
resumption either way. -/
def goFetch (s : St) (i : Nat) (t : CrawlTask) : St :=
  { s with tasks := s.tasks.set i { t with pc := .fetchWait }
           fetchLog := s.fetchLog ++ [t.url] }

/-- `finally: sem.release()` and coroutine return. -/
def releaseDone (s : St) (i : Nat) (t : CrawlTask) : St :=
  { s with tasks := s.tasks.set i { t with pc := .done }
           semAvail := s.semAvail + 1 }

/-- Continuation after the semaphore slot is acquired (crawler.py
lines 142-149): with robots respected, a cached host is decided
synchronously (allowed proceeds to the fetch, denied releases the slot
and returns), an uncached host suspends into the robots.txt request;
without robots the task proceeds to the fetch.  The caller has already
removed the acquired slot from `s.semAvail`. -/
def afterAcquire (sp : SpecC) (w : World) (s : St) (i : Nat) (t : CrawlTask) : St :=
  if sp.respectRobots then
    match lookupCache (hostOf t.url) s.robotsCache with
    | some txt =>
        if is_allowed w txt sp.userAgent t.url then goFetch s i t
        else releaseDone s i t
    | none =>
        { s with tasks := s.tasks.set i { t with pc := .robotsWait }
                 robotsLog := s.robotsLog ++ [hostOf t.url] }
  else goFetch s i t

/-- First run of the coroutine body (crawler.py lines 129-141): the
admission checks in source order, then the seen-mark, then the
semaphore acquire — all before any suspension point, so one atomic
step (the acquire suspends only when no slot is free). -/
def runStart (sp : SpecC) (w : World) (s : St) (i : Nat) (t : CrawlTask) : St :=
  if s.cancelled then setTask s i { t with pc := .done }
  else if t.url ∈ s.seen then setTask s i { t with pc := .done }
  else if depthExceeded sp t.depth then setTask s i { t with pc := .done }
  else if pagesReached sp s.pages then setTask s i { t with pc := .done }
  else if durExceeded sp s.clock then setTask s i { t with pc := .done }
  else if !in_scope t.url sp.allow sp.deny then setTask s i { t with pc := .done }
  else if sp.sameDomainOnly && !same_domain t.url (seedHosts sp) then
    setTask s i { t with pc := .done }
  else
    if 0 < s.semAvail then
      afterAcquire sp w
        { s with seen := t.url :: s.seen, semAvail := s.semAvail - 1 } i t
    else setTask { s with seen := t.url :: s.seen } i { t with pc := .waitSem }

/-- Resumption after the robots.txt response (crawler.py lines 25-31):
parse the text, or parse the empty string on any error, store the
parsed policy in the per-host cache, and decide admission with the
just-stored policy. -/
def robotsStore (sp : SpecC) (w : World) (s : St) (i : Nat) (t : CrawlTask)
    (txt : String) : St :=
  if is_allowed w txt sp.userAgent t.url then
    goFetch { s with robotsCache := (hostOf t.url, txt) :: s.robotsCache } i t
  else
    releaseDone { s with robotsCache := (hostOf t.url, txt) :: s.robotsCache } i t

def stepRobots (sp : SpecC) (w : World) (s : St) (i : Nat) (t : CrawlTask) : St :=
  match w.robots (robotsUrl t.url) with
  | .ok t0 => robotsStore sp w s i t t0
  | .error _ => robotsStore sp w s i t ""

/-- Resumption after `crawler.arun` (crawler.py lines 154-168 and
189): on success build the success record from the markup; on a
reported failure or a raised exception build the failure record; then
suspend into `insert_result`. -/
def stepFetch (w : World) (s : St) (i : Nat) (t : CrawlTask) : St :=
  match w.fetch t.url with
  | .ok pg =>
      setTask s i { t with pc := .insertWait (successRecord w t.url t.depth s.clock pg) true }
  | .fail m =>
      setTask s i { t with pc := .insertWait (failRecord t.url t.depth s.clock (errorText m)) false }
  | .raised m =>
      setTask s i { t with pc := .insertWait (failRecord t.url t.depth s.clock m) false }

/-- Resumption after `insert_result` (crawler.py lines 182-187 and
203-206): the record is persisted; on the success path the page
counter is incremented and every discovered link not in `seen` is
appended to the frontier at depth + 1; the `finally` releases the
slot. -/
def stepInsert (s : St) (i : Nat) (t : CrawlTask) (rec : PageRecord)
    (isOk : Bool) : St :=
  if isOk then
    releaseDone
      { s with results := s.results ++ [rec]
               pages := s.pages + 1
               q := s.q ++ (rec.links.filter (fun l => l ∉ s.seen)).map
                 (fun l => (l, t.depth + 1)) } i t
  else releaseDone { s with results := s.results ++ [rec] } i t

/-- One step of task `i`, from its current suspension point to the
next. -/
def stepTask (sp : SpecC) (w : World) (s : St) (i : Nat) : St :=
  match s.tasks[i]? with
  | none => s
  | some t =>
    match t.pc with
    | .start => runStart sp w s i t
    | .waitSem =>
        if 0 < s.semAvail then
          afterAcquire sp w { s with semAvail := s.semAvail - 1 } i t
        else s
    | .robotsWait => stepRobots sp w s i t
    | .fetchWait => stepFetch w s i t
    | .insertWait rec isOk => stepInsert s i t rec isOk
    | .done => s

def allDone (ts : List CrawlTask) : Bool :=
  ts.all (fun t => decide (t.pc = .done))

/-- One step of the job controller.  In the dispatch loop (crawler.py
lines 209-232) one iteration checks, in source order, frontier
emptiness, the cancellation flag, the page limit and the duration
limit, then pops the head entry and spawns a task for it.  After the
loop the controller gathers the outstanding tasks and then persists
the stats and the terminal status (the latter modelled from the spec,
see `terminalStatus`). -/
def stepMain (sp : SpecC) (s : St) : St :=
  match s.mainPc with
  | .loop =>
    match s.q with
    | [] => { s with mainPc := .gathering }
    | (u, d) :: rest =>
      if s.cancelled then { s with mainPc := .gathering }
      else if pagesReached sp s.pages then { s with mainPc := .gathering }
      else if durExceeded sp s.clock then { s with mainPc := .gathering }
      else { s with q := rest, tasks := s.tasks ++ [⟨u, d, .start⟩] }
  | .gathering =>
    if allDone s.tasks then
      { s with stats := some ⟨s.pages, s.seen.length, s.clock⟩
               status := terminalStatus s.cancelled
               mainPc := .finished }
    else s
  | .finished => s

/-- Scheduler actions: run the controller, run task `i`, let wall
clock time pass, or set the external cancellation flag. -/
inductive Act where
  | main
  | task (i : Nat)
  | tick
  | cancel
deriving DecidableEq, Repr

def step (sp : SpecC) (w : World) (s : St) (a : Act) : St :=
  match a with
  | .main => stepMain sp s
  | .task i => stepTask sp w s i
  | .tick => { s with clock := s.clock + 1 }
  | .cancel => { s with cancelled := true }

/-- A run of `crawl_job` under a given schedule. -/
def run (sp : SpecC) (w : World) (acts : List Act) : St :=
  acts.foldl (step sp w) (initSt sp)

/-! ## Infrastructure lemmas -/

theorem run_append (sp : SpecC) (w : World) (l1 l2 : List Act) :
    run sp w (l1 ++ l2) = l2.foldl (step sp w) (run sp w l1) := by
  simp [run, List.foldl_append]

/-- Invariant preservation transfers from single steps to whole
schedules. -/
theorem foldl_invariant (sp : SpecC) (w : World) (P : St → Prop)
    (h : ∀ s a, P s → P (step sp w s a)) :
    ∀ (l : List Act) (s : St), P s → P (l.foldl (step sp w) s) := by
  intro l
  induction l with
  | nil => intro s hs; exact hs
  | cons a as ih => intro s hs; exact ih (step sp w s a) (h s a hs)

theorem countP_set_eq {α : Type} (p : α → Bool) (l : List α) (i : Nat) (x : α)
    (h : i < l.length) :
    (l.set i x).countP p + (if p (l.get ⟨i, h⟩) then 1 else 0)
      = l.countP p + (if p x then 1 else 0) := by
  induction l generalizing i with
  | nil => simp at h
  | cons a as ih =>
    cases i with
    | zero => simp [List.countP_cons]; omega
    | succ n =>
      have hn : n < as.length := by simpa using h
      have := ih n hn
      simp only [List.set_cons_succ, List.countP_cons, List.get_cons_succ]
      omega

/-- Projections that `goFetch` leaves unchanged. -/
theorem goFetch_proj (s : St) (i : Nat) (t : CrawlTask) :
    (goFetch s i t).pages = s.pages ∧ (goFetch s i t).q = s.q ∧
    (goFetch s i t).seen = s.seen ∧ (goFetch s i t).results = s.results ∧
    (goFetch s i t).cancelled = s.cancelled ∧
    (goFetch s i t).mainPc = s.mainPc ∧ (goFetch s i t).status = s.status ∧
    (goFetch s i t).stats = s.stats ∧ (goFetch s i t).clock = s.clock ∧
    (goFetch s i t).semAvail = s.semAvail ∧
    (goFetch s i t).robotsCache = s.robotsCache := by
  simp [goFetch]

/-- Projections that `releaseDone` leaves unchanged. -/
theorem releaseDone_proj (s : St) (i : Nat) (t : CrawlTask) :
    (releaseDone s i t).pages = s.pages ∧ (releaseDone s i t).q = s.q ∧
    (releaseDone s i t).seen = s.seen ∧
    (releaseDone s i t).results = s.results ∧
    (releaseDone s i t).cancelled = s.cancelled ∧
    (releaseDone s i t).mainPc = s.mainPc ∧
    (releaseDone s i t).status = s.status ∧
    (releaseDone s i t).stats = s.stats ∧
    (releaseDone s i t).clock = s.clock ∧
    (releaseDone s i t).robotsCache = s.robotsCache := by
  simp [releaseDone]

/-! ## Claim C1: page counter and page limit -/

theorem pages_afterAcquire (sp : SpecC) (w : World) (s : St) (i : Nat)
    (t : CrawlTask) : (afterAcquire sp w s i t).pages = s.pages := by
  unfold afterAcquire
  repeat' split
  all_goals simp [goFetch, releaseDone]

theorem pages_runStart (sp : SpecC) (w : World) (s : St) (i : Nat)
    (t : CrawlTask) : (runStart sp w s i t).pages = s.pages := by
  unfold runStart
  repeat' split
  all_goals simp [setTask, pages_afterAcquire]

theorem pages_stepTask (sp : SpecC) (w : World) (s : St) (i : Nat) :
    (stepTask sp w s i).pages = s.pages ∨
      (stepTask sp w s i).pages = s.pages + 1 := by
  unfold stepTask stepRobots robotsStore stepFetch stepInsert
  repeat' split
  all_goals simp [setTask, pages_afterAcquire, pages_runStart, goFetch,
    releaseDone]

theorem pages_stepMain (sp : SpecC) (s : St) :
    (stepMain sp s).pages = s.pages := by
  unfold stepMain
  repeat' split
  all_goals simp

theorem pages_le_step (sp : SpecC) (w : World) (s : St) (a : Act) :
    s.pages ≤ (step sp w s a).pages := by
  cases a with
  | main => simp [step, pages_stepMain]
  | task i =>
    rcases pages_stepTask sp w s i with h | h <;> simp [step, h]
  | tick => exact Nat.le_refl _
  | cancel => exact Nat.le_refl _

/-- C1, amended part.  The page counter never decreases along any
extension of any schedule. -/
theorem C1_page_counter_monotone (sp : SpecC) (w : World)
    (acts more : List Act) :
    (run sp w acts).pages ≤ (run sp w (acts ++ more)).pages := by
  rw [run_append]
  have h := foldl_invariant sp w
    (fun s => (run sp w acts).pages ≤ s.pages)
    (fun s a hs => Nat.le_trans hs (pages_le_step sp w s a))
    more (run sp w acts) (Nat.le_refl _)
  exact h

/-- Base world shared by the concrete scenarios: every fetch succeeds
with empty markup, the robots endpoint is unreachable, the robots
parser denies, markup has no anchors and yields no title, text or
extraction. -/
def w1 : World :=
  { fetch := fun _ => .ok ⟨"", ""⟩
    robots := fun _ => .error "net down"
    robotsDecide := fun _ _ _ => false
    anchors := fun _ => []
    titleOf := fun _ => none
    textOf := fun _ => none
    extractSel := fun _ => [] }

/-- Two seeds on distinct hosts, `maxPages = 1`, concurrency 2. -/
def sp1 : SpecC :=
  { seeds := ["h://a/", "h://b/"], allow := [], deny := [], maxDepth := none
    maxPages := some 1, maxDuration := none, concurrency := some 2
    userAgent := "ua", respectRobots := false, sameDomainOnly := true }

/-- Schedule: the loop admits both seeds, both tasks pass the
`pages >= max_pages` check at counter 0 before either incremented it,
both fetch and persist, the controller then finishes. -/
def acts1 : List Act :=
  [.main, .main, .task 0, .task 1, .task 0, .task 0, .task 1, .task 1,
   .main, .main]

/-- C1 counterexample: with `maxPages = 1` and concurrency 2 the run
persists two PageResults and drives the page counter to 2 — both
bounds of the claim fail on an interleaving in which two admitted
tasks check the counter before either increments it. -/
theorem C1_counterexample :
    sp1.maxPages = some 1 ∧ (run sp1 w1 acts1).results.length = 2 ∧
      (run sp1 w1 acts1).pages = 2 ∧
      (run sp1 w1 acts1).mainPc = .finished := by
  refine ⟨rfl, ?_, ?_, ?_⟩ <;> rfl

/-! ## Task indexing helpers -/

theorem lt_of_getElem?_some {l : List CrawlTask} {i : Nat} {t : CrawlTask}
    (h : l[i]? = some t) : i < l.length := by
  rcases List.getElem?_eq_some.mp h with ⟨hl, _⟩
  exact hl

theorem getElem?_set_task {l : List CrawlTask} {i : Nat} {t : CrawlTask}
    (x : CrawlTask) (h : l[i]? = some t) : (l.set i x)[i]? = some x := by
  simp [List.getElem?_set_self, lt_of_getElem?_some h]

theorem countP_set_of_getElem? (p : CrawlTask → Bool) {l : List CrawlTask}
    {i : Nat} {t : CrawlTask} (x : CrawlTask) (h : l[i]? = some t) :
    (l.set i x).countP p + (if p t then 1 else 0)
      = l.countP p + (if p x then 1 else 0) := by
  have hlen := lt_of_getElem?_some h
  have hget : l.get ⟨i, hlen⟩ = t := by
    rcases List.getElem?_eq_some.mp h with ⟨_, hv⟩
    simpa [List.get_eq_getElem] using hv
  have := countP_set_eq p l i x hlen
  rw [hget] at this
  exact this

/-! ## Claim C4: frontier enqueue -/

/-- C4, amended part.  The links enqueued when a success record is
persisted are exactly the discovered links that are not yet marked
seen, appended in order at the parent depth + 1: the enqueue is a
no-op only for links already admitted, not for links merely sitting in
the frontier. -/
theorem C4_enqueue_skips_seen (sp : SpecC) (w : World) (s : St) (i : Nat)
    (t : CrawlTask) (rec : PageRecord) (ht : s.tasks[i]? = some t)
    (hpc : t.pc = .insertWait rec true) :
    (stepTask sp w s i).q
      = s.q ++ (rec.links.filter (fun l => l ∉ s.seen)).map
          (fun l => (l, t.depth + 1)) := by
  simp only [stepTask, ht, hpc, stepInsert, releaseDone, if_true]

/-- One seed whose page carries two anchors to the same relative
target. -/
def sp4 : SpecC :=
  { seeds := ["h://s/"], allow := [], deny := [], maxDepth := none
    maxPages := none, maxDuration := none, concurrency := some 2
    userAgent := "ua", respectRobots := false, sameDomainOnly := true }

def w4 : World :=
  { fetch := fun _ => .ok ⟨"H", "m"⟩
    robots := fun _ => .error "net down"
    robotsDecide := fun _ _ _ => false
    anchors := fun h => if h = "H" then ["p", "p"] else []
    titleOf := fun _ => none
    textOf := fun _ => none
    extractSel := fun _ => [] }

def acts4 : List Act := [.main, .task 0, .task 0, .task 0]

/-- C4 counterexample: after the seed page (which links twice to the
same not-yet-admitted URL) is processed, the frontier holds two
entries for that URL — enqueue deduplicates only against the seen
set, not against the frontier. -/
theorem C4_counterexample :
    (run sp4 w4 acts4).q = [("h://s/p", 1), ("h://s/p", 1)] := by decide

def rec4 : PageRecord := successRecord w4 ("h://s/") 0 0 ⟨"H", "m"⟩

def st4 : St := run sp4 w4 [Act.main, Act.task 0, Act.task 0]

theorem C4_enqueue_skips_seen_witness :
    (stepTask sp4 w4 st4 0).q
      = st4.q ++ (rec4.links.filter (fun l => l ∉ st4.seen)).map
          (fun l => (l, 0 + 1)) :=
  C4_enqueue_skips_seen sp4 w4 st4 0 ⟨"h://s/", 0, .insertWait rec4 true⟩
    rec4 (by rfl) rfl

/-! ## Claim C5: fetch failure handling -/

/-- The error text the source attaches when the fetch collaborator
reports failure (`raise Exception(result.error_message or "Unknown
crawl error")`) or itself raises; `none` on success. -/
def failureText (o : FetchOutcome) : Option String :=
  match o with
  | .ok _ => none
  | .fail m => some (errorText m)
  | .raised m => some m

/-- C5: when the fetch collaborator reports failure or raises, the
task persists exactly one failure PageResult — status code 0, null
content-type/title/text/html/markdown, empty links and extraction
map, the error text — releases its slot and finishes, while the
frontier, the page counter, the dispatch loop position and the job
status are untouched: a failing page never aborts the job. -/
theorem C5_failure_persists_failure_record (sp : SpecC) (w : World) (s : St)
    (i : Nat) (t : CrawlTask) (e : String) (ht : s.tasks[i]? = some t)
    (hpc : t.pc = .fetchWait) (hf : failureText (w.fetch t.url) = some e) :
    (stepTask sp w (stepTask sp w s i) i).results
        = s.results ++
          [{ url := t.url, statusCode := 0, depth := t.depth,
             fetchedAt := s.clock, contentType := none, title := none,
             text := none, html := none, markdown := none, links := [],
             extracted := [], error := some e }] ∧
      (stepTask sp w (stepTask sp w s i) i).q = s.q ∧
      (stepTask sp w (stepTask sp w s i) i).pages = s.pages ∧
      (stepTask sp w (stepTask sp w s i) i).mainPc = s.mainPc ∧
      (stepTask sp w (stepTask sp w s i) i).status = s.status ∧
      (stepTask sp w (stepTask sp w s i) i).stats = s.stats ∧
      (stepTask sp w (stepTask sp w s i) i).semAvail = s.semAvail + 1 ∧
      (stepTask sp w (stepTask sp w s i) i).tasks[i]?
        = some { t with pc := .done } := by
  rcases hfo : w.fetch t.url with pg | m | m
  · rw [hfo] at hf
    simp [failureText] at hf
  · rw [hfo] at hf
    simp only [failureText, Option.some.injEq] at hf
    have h1 : stepTask sp w s i
        = setTask s i { t with pc := .insertWait (failRecord t.url t.depth s.clock (errorText m)) false } := by
      simp only [stepTask, ht, hpc, stepFetch, hfo]
    rw [h1]
    have ht2 : (s.tasks.set i { t with pc := .insertWait (failRecord t.url t.depth s.clock (errorText m)) false })[i]?
        = some { t with pc := .insertWait (failRecord t.url t.depth s.clock (errorText m)) false } :=
      getElem?_set_task _ ht
    simp only [stepTask, setTask, ht2, stepInsert, releaseDone, if_false,
      Bool.false_eq_true, List.set_set]
    refine ⟨?_, ?_, ?_, ?_, ?_, ?_, ?_, ?_⟩ <;>
      first
        | trivial
        | simp [failRecord, hf]
        | exact getElem?_set_task _ ht
  · rw [hfo] at hf
    simp only [failureText, Option.some.injEq] at hf
    have h1 : stepTask sp w s i
        = setTask s i { t with pc := .insertWait (failRecord t.url t.depth s.clock m) false } := by
      simp only [stepTask, ht, hpc, stepFetch, hfo]
    rw [h1]
    have ht2 : (s.tasks.set i { t with pc := .insertWait (failRecord t.url t.depth s.clock m) false })[i]?
        = some { t with pc := .insertWait (failRecord t.url t.depth s.clock m) false } :=
      getElem?_set_task _ ht
    simp only [stepTask, setTask, ht2, stepInsert, releaseDone, if_false,
      Bool.false_eq_true, List.set_set]
    refine ⟨?_, ?_, ?_, ?_, ?_, ?_, ?_, ?_⟩ <;>
      first
        | trivial
        | simp [failRecord, hf]
        | exact getElem?_set_task _ ht

/-- Two seeds; the fetch of the first raises. -/
def sp2 : SpecC :=
  { seeds := ["h://a/", "h://b/"], allow := [], deny := [], maxDepth := none
    maxPages := none, maxDuration := none, concurrency := some 2
    userAgent := "ua", respectRobots := false, sameDomainOnly := true }

def w2 : World :=
  { fetch := fun u => if u = "h://a/" then .raised "boom" else .ok ⟨"", ""⟩
    robots := fun _ => .error "net down"
    robotsDecide := fun _ _ _ => false
    anchors := fun _ => []
    titleOf := fun _ => none
    textOf := fun _ => none
    extractSel := fun _ => [] }

def st2 : St := run sp2 w2 [Act.main, Act.task 0]

theorem C5_failure_persists_failure_record_witness :
    (stepTask sp2 w2 (stepTask sp2 w2 st2 0) 0).results
        = st2.results ++
          [{ url := "h://a/", statusCode := 0, depth := 0,
             fetchedAt := st2.clock, contentType := none, title := none,
             text := none, html := none, markdown := none, links := [],
             extracted := [], error := some "boom" }] ∧
      (stepTask sp2 w2 (stepTask sp2 w2 st2 0) 0).q = st2.q ∧
      (stepTask sp2 w2 (stepTask sp2 w2 st2 0) 0).pages = st2.pages ∧
      (stepTask sp2 w2 (stepTask sp2 w2 st2 0) 0).mainPc = st2.mainPc ∧
      (stepTask sp2 w2 (stepTask sp2 w2 st2 0) 0).status = st2.status ∧
      (stepTask sp2 w2 (stepTask sp2 w2 st2 0) 0).stats = st2.stats ∧
      (stepTask sp2 w2 (stepTask sp2 w2 st2 0) 0).semAvail = st2.semAvail + 1 ∧
      (stepTask sp2 w2 (stepTask sp2 w2 st2 0) 0).tasks[0]?
        = some ⟨"h://a/", 0, .done⟩ :=
  C5_failure_persists_failure_record sp2 w2 st2 0 ⟨"h://a/", 0, .fetchWait⟩
    "boom" (by rfl) rfl (by rfl)

/-! ## Frame lemmas for the step handlers -/

theorem afterAcquire_frame (sp : SpecC) (w : World) (s : St) (i : Nat)
    (t : CrawlTask) :
    (afterAcquire sp w s i t).q = s.q ∧
    (afterAcquire sp w s i t).seen = s.seen ∧
    (afterAcquire sp w s i t).pages = s.pages ∧
    (afterAcquire sp w s i t).clock = s.clock ∧
    (afterAcquire sp w s i t).cancelled = s.cancelled ∧
    (afterAcquire sp w s i t).results = s.results ∧
    (afterAcquire sp w s i t).mainPc = s.mainPc ∧
    (afterAcquire sp w s i t).status = s.status ∧
    (afterAcquire sp w s i t).stats = s.stats ∧
    (afterAcquire sp w s i t).robotsCache = s.robotsCache := by
  unfold afterAcquire
  repeat' split
  all_goals simp [goFetch, releaseDone]

theorem runStart_frame (sp : SpecC) (w : World) (s : St) (i : Nat)
    (t : CrawlTask) :
    (runStart sp w s i t).q = s.q ∧
    (runStart sp w s i t).pages = s.pages ∧
    (runStart sp w s i t).clock = s.clock ∧
    (runStart sp w s i t).cancelled = s.cancelled ∧
    (runStart sp w s i t).results = s.results ∧
    (runStart sp w s i t).mainPc = s.mainPc ∧
    (runStart sp w s i t).status = s.status ∧
    (runStart sp w s i t).stats = s.stats ∧
    (runStart sp w s i t).robotsCache = s.robotsCache := by
  unfold runStart
  repeat' split
  all_goals simp [setTask, afterAcquire_frame]

theorem stepTask_ctrl (sp : SpecC) (w : World) (s : St) (i : Nat) :
    (stepTask sp w s i).mainPc = s.mainPc ∧
    (stepTask sp w s i).status = s.status ∧
    (stepTask sp w s i).stats = s.stats ∧
    (stepTask sp w s i).cancelled = s.cancelled ∧
    (stepTask sp w s i).clock = s.clock := by
  unfold stepTask stepRobots robotsStore stepFetch stepInsert
  repeat' split
  all_goals
    simp [setTask, goFetch, releaseDone, runStart_frame, afterAcquire_frame]

theorem stepTask_results (sp : SpecC) (w : World) (s : St) (i : Nat) :
    (stepTask sp w s i).results = s.results ∨
      ∃ r, (stepTask sp w s i).results = s.results ++ [r] := by
  unfold stepTask stepRobots robotsStore stepFetch stepInsert
  repeat' split
  all_goals
    simp [setTask, goFetch, releaseDone, runStart_frame, afterAcquire_frame]

theorem stepMain_frame (sp : SpecC) (s : St) :
    (stepMain sp s).seen = s.seen ∧
    (stepMain sp s).pages = s.pages ∧
    (stepMain sp s).clock = s.clock ∧
    (stepMain sp s).cancelled = s.cancelled ∧
    (stepMain sp s).results = s.results ∧
    (stepMain sp s).robotsCache = s.robotsCache ∧
    (stepMain sp s).robotsLog = s.robotsLog ∧
    (stepMain sp s).fetchLog = s.fetchLog ∧
    (stepMain sp s).semAvail = s.semAvail := by
  unfold stepMain
  repeat' split
  all_goals simp

/-! ## Claim C6: robots caching and permissive fallback -/

theorem lookupCache_cons (h k v : String) (l : List (String × String)) :
    lookupCache h ((k, v) :: l)
      = if k == h then some v else lookupCache h l := by
  by_cases hk : k == h
  · simp [lookupCache, List.find?, hk]
  · simp only [lookupCache, List.find?]
    simp only [Bool.not_eq_true] at hk
    simp [hk]

theorem robotsCache_stepTask (sp : SpecC) (w : World) (s : St) (i : Nat) :
    (stepTask sp w s i).robotsCache = s.robotsCache ∨
      ∃ p, (stepTask sp w s i).robotsCache = p :: s.robotsCache := by
  unfold stepTask stepRobots robotsStore stepFetch stepInsert
  repeat' split
  all_goals
    simp [setTask, goFetch, releaseDone, runStart_frame, afterAcquire_frame]

theorem robotsLog_afterAcquire (sp : SpecC) (w : World) (s : St) (i : Nat)
    (t : CrawlTask) :
    (afterAcquire sp w s i t).robotsLog = s.robotsLog ∨
      ((afterAcquire sp w s i t).robotsLog = s.robotsLog ++ [hostOf t.url] ∧
        lookupCache (hostOf t.url) s.robotsCache = none) := by
  unfold afterAcquire
  repeat' split
  all_goals simp_all [goFetch, releaseDone]

theorem robotsLog_runStart (sp : SpecC) (w : World) (s : St) (i : Nat)
    (t : CrawlTask) :
    (runStart sp w s i t).robotsLog = s.robotsLog ∨
      ((runStart sp w s i t).robotsLog = s.robotsLog ++ [hostOf t.url] ∧
        lookupCache (hostOf t.url) s.robotsCache = none) := by
  unfold runStart
  repeat' split
  all_goals (try simp [setTask])
  exact robotsLog_afterAcquire sp w _ i t

theorem robotsLog_stepTask (sp : SpecC) (w : World) (s : St) (i : Nat) :
    (stepTask sp w s i).robotsLog = s.robotsLog ∨
      ∃ hst, (stepTask sp w s i).robotsLog = s.robotsLog ++ [hst] ∧
        lookupCache hst s.robotsCache = none := by
  rcases ht : s.tasks[i]? with _ | t
  · left
    simp [stepTask, ht]
  · rcases hpc : t.pc with _ | _ | _ | _ | ⟨rec, isOk⟩ | _
    · simp only [stepTask, ht, hpc]
      rcases robotsLog_runStart sp w s i t with h | ⟨h1, h2⟩
      · exact Or.inl h
      · exact Or.inr ⟨hostOf t.url, h1, h2⟩
    · simp only [stepTask, ht, hpc]
      by_cases hs : 0 < s.semAvail
      · simp only [hs, if_true]
        rcases robotsLog_afterAcquire sp w
            { s with semAvail := s.semAvail - 1 } i t with h | ⟨h1, h2⟩
        · exact Or.inl h
        · exact Or.inr ⟨hostOf t.url, h1, h2⟩
      · simp only [hs, if_false]
        exact Or.inl trivial
    · simp only [stepTask, ht, hpc]
      left
      unfold stepRobots robotsStore
      repeat' split
      all_goals simp [goFetch, releaseDone]
    · simp only [stepTask, ht, hpc]
      left
      unfold stepFetch
      repeat' split
      all_goals simp [setTask]
    · simp only [stepTask, ht, hpc]
      left
      unfold stepInsert
      repeat' split
      all_goals simp [releaseDone]
    · simp only [stepTask, ht, hpc]
      exact Or.inl trivial

/-- C6, amended.  (1) A cached host entry survives every step.  (2) A
robots.txt fetch is only ever started for a host with no cache entry —
so a host whose policy is cached is never refetched; two tasks that
concurrently first-touch the same host may however each start a fetch,
see the counterexample.  (3) When the robots.txt request fails, the
task caches the permissive empty policy for the host and proceeds to
fetch the page. -/
theorem C6_robots_cache_behavior (sp : SpecC) (w : World) :
    (∀ (s : St) (a : Act) (h : String),
        (lookupCache h s.robotsCache).isSome = true →
          (lookupCache h (step sp w s a).robotsCache).isSome = true) ∧
    (∀ (s : St) (a : Act),
        (step sp w s a).robotsLog = s.robotsLog ∨
          ∃ hst, (step sp w s a).robotsLog = s.robotsLog ++ [hst] ∧
            lookupCache hst s.robotsCache = none) ∧
    (∀ (s : St) (i : Nat) (t : CrawlTask) (e : String),
        s.tasks[i]? = some t → t.pc = .robotsWait →
          w.robots (robotsUrl t.url) = .error e →
          (stepTask sp w s i).robotsCache
              = (hostOf t.url, "") :: s.robotsCache ∧
            (stepTask sp w s i).tasks[i]? = some { t with pc := .fetchWait } ∧
            (stepTask sp w s i).fetchLog = s.fetchLog ++ [t.url]) := by
  refine ⟨?_, ?_, ?_⟩
  · intro s a h hsome
    cases a with
    | main =>
      have := (stepMain_frame sp s).2.2.2.2.2.1
      simpa [step, this] using hsome
    | task i =>
      rcases robotsCache_stepTask sp w s i with hc | ⟨p, hc⟩
      · simpa [step, hc] using hsome
      · rcases p with ⟨k, v⟩
        rw [step, hc, lookupCache_cons]
        by_cases hk : k == h <;> simp [hk, hsome]
    | tick => simpa [step] using hsome
    | cancel => simpa [step] using hsome
  · intro s a
    cases a with
    | main =>
      exact Or.inl (stepMain_frame sp s).2.2.2.2.2.2.1
    | task i => exact robotsLog_stepTask sp w s i
    | tick => exact Or.inl rfl
    | cancel => exact Or.inl rfl
  · intro s i t e ht hpc herr
    simp only [stepTask, ht, hpc, stepRobots, herr, robotsStore, is_allowed,
      if_true, goFetch]
    refine ⟨?_, ?_, ?_⟩ <;> first | trivial | exact getElem?_set_task _ ht

/-- Two same-host seeds with robots respected. -/
def sp6 : SpecC :=
  { seeds := ["h://a/x", "h://a/y"], allow := [], deny := [], maxDepth := none
    maxPages := none, maxDuration := none, concurrency := some 2
    userAgent := "ua", respectRobots := true, sameDomainOnly := true }

def acts6 : List Act := [.main, .main, .task 0, .task 1]

/-- C6 counterexample: both tasks of host `a` pass the cache check
before either response arrives, so the robots policy of one host is
fetched twice in one job. -/
theorem C6_counterexample :
    (run sp6 w1 acts6).robotsLog = ["a", "a"] := by decide

def st6 : St := run sp6 w1 [Act.main, Act.task 0]

theorem C6_robots_cache_behavior_witness :
    (stepTask sp6 w1 st6 0).robotsCache = (("a"), "") :: st6.robotsCache ∧
      (stepTask sp6 w1 st6 0).tasks[0]?
        = some ⟨"h://a/x", 0, .fetchWait⟩ ∧
      (stepTask sp6 w1 st6 0).fetchLog = st6.fetchLog ++ ["h://a/x"] := by
  have h := (C6_robots_cache_behavior sp6 w1).2.2 st6 0
    ⟨"h://a/x", 0, .robotsWait⟩ "net down" (by rfl) rfl (by rfl)
  simpa using h

/-! ## Claim C2: cancellation before natural completion -/

theorem cancelled_step (sp : SpecC) (w : World) (s : St) (a : Act)
    (h : s.cancelled = true) : (step sp w s a).cancelled = true := by
  cases a with
  | main =>
    show (stepMain sp s).cancelled = true
    rw [(stepMain_frame sp s).2.2.2.1]
    exact h
  | task i =>
    show (stepTask sp w s i).cancelled = true
    rw [(stepTask_ctrl sp w s i).2.2.2.1]
    exact h
  | tick => exact h
  | cancel => rfl

theorem results_le_step (sp : SpecC) (w : World) (s : St) (a : Act) :
    s.results.length ≤ (step sp w s a).results.length := by
  cases a with
  | main =>
    show s.results.length ≤ (stepMain sp s).results.length
    rw [(stepMain_frame sp s).2.2.2.2.1]
  | task i =>
    show s.results.length ≤ (stepTask sp w s i).results.length
    rcases stepTask_results sp w s i with h | ⟨r, h⟩ <;> simp [h]
  | tick => exact Nat.le_refl _
  | cancel => exact Nat.le_refl _

/-- Once the controller is finished, its position, status and stats
never change again. -/
theorem finished_stable (sp : SpecC) (w : World) (s : St) (a : Act)
    (h : s.mainPc = .finished) :
    (step sp w s a).mainPc = .finished ∧
      (step sp w s a).status = s.status ∧ (step sp w s a).stats = s.stats := by
  cases a with
  | main => simp [step, stepMain, h]
  | task i =>
    rcases stepTask_ctrl sp w s i with ⟨h1, h2, h3, _⟩
    exact ⟨h1.trans h, h2, h3⟩
  | tick => exact ⟨h, rfl, rfl⟩
  | cancel => exact ⟨h, rfl, rfl⟩

/-- A controller step that ends finished either started finished or is
the terminal transition, which writes the terminal status and the
stats. -/
theorem stepMain_finished_char (sp : SpecC) (s : St)
    (h : (stepMain sp s).mainPc = .finished) :
    s.mainPc = .finished ∨
      ((stepMain sp s).status = terminalStatus s.cancelled ∧
        (stepMain sp s).stats = some ⟨s.pages, s.seen.length, s.clock⟩) := by
  cases hm : s.mainPc with
  | loop =>
    exfalso
    unfold stepMain at h
    rw [hm] at h
    rcases hq : s.q with _ | ⟨⟨u, d⟩, rest⟩ <;> rw [hq] at h
    · simp at h
    · repeat' split at h
      all_goals simp_all
  | gathering =>
    unfold stepMain at h ⊢
    rw [hm] at h ⊢
    by_cases hd : allDone s.tasks
    · simp only [hd, if_true]
      refine Or.inr ⟨?_, ?_⟩ <;> trivial
    · rw [if_neg (by simp [hd])] at h
      rw [hm] at h
      simp at h
  | finished => exact Or.inl rfl

/-- The single-step preservation behind C2: once the flag is set and a
result is persisted, any step keeps them, and a step that finishes the
controller writes status cancelled and persists stats. -/
theorem C2_inv_step (sp : SpecC) (w : World) (s : St) (a : Act)
    (h : s.cancelled = true ∧ 1 ≤ s.results.length ∧
      (s.mainPc = .finished →
        s.status = .cancelled ∧ s.stats.isSome = true)) :
    (step sp w s a).cancelled = true ∧
      1 ≤ (step sp w s a).results.length ∧
      ((step sp w s a).mainPc = .finished →
        (step sp w s a).status = .cancelled ∧
          (step sp w s a).stats.isSome = true) := by
  rcases h with ⟨hc, hr, hf⟩
  refine ⟨cancelled_step sp w s a hc, Nat.le_trans hr (results_le_step sp w s a), ?_⟩
  intro hfin
  by_cases hsf : s.mainPc = .finished
  · rcases finished_stable sp w s a hsf with ⟨_, h2, h3⟩
    rcases hf hsf with ⟨h4, h5⟩
    rw [h2, h3]
    exact ⟨h4, h5⟩
  · cases a with
    | main =>
      show (stepMain sp s).status = .cancelled ∧
        (stepMain sp s).stats.isSome = true
      rcases stepMain_finished_char sp s hfin with h | ⟨h1, h2⟩
      · exact absurd h hsf
      · rw [h1, h2]
        exact ⟨by simp [terminalStatus, hc], rfl⟩
    | task i =>
      have h1 : (stepTask sp w s i).mainPc = s.mainPc :=
        (stepTask_ctrl sp w s i).1
      have hfin' : (stepTask sp w s i).mainPc = .finished := hfin
      rw [h1] at hfin'
      exact absurd hfin' hsf
    | tick => exact absurd hfin hsf
    | cancel => exact absurd hfin hsf

/-- C2, amended.  If the cancellation flag is set at a point where at
least one PageResult has been persisted and the controller has not yet
reached its terminal transition, then whenever the job terminates it
does so with status cancelled, with at least one PageResult persisted,
and with the aggregate stats persisted on the terminal transition. -/
theorem C2_cancel_after_result_terminates_cancelled (sp : SpecC) (w : World)
    (acts1 acts2 : List Act)
    (hc : (run sp w acts1).cancelled = true)
    (hr : 1 ≤ (run sp w acts1).results.length)
    (hnf : (run sp w acts1).mainPc ≠ .finished)
    (hfin : (run sp w (acts1 ++ acts2)).mainPc = .finished) :
    (run sp w (acts1 ++ acts2)).status = .cancelled ∧
      ((run sp w (acts1 ++ acts2)).stats).isSome = true ∧
      1 ≤ (run sp w (acts1 ++ acts2)).results.length := by
  have hinv := foldl_invariant sp w
    (fun s => s.cancelled = true ∧ 1 ≤ s.results.length ∧
      (s.mainPc = .finished →
        s.status = .cancelled ∧ s.stats.isSome = true))
    (fun s a h => C2_inv_step sp w s a h)
    acts2 (run sp w acts1) ⟨hc, hr, fun h => absurd h hnf⟩
  rw [run_append] at hfin ⊢
  rcases hinv with ⟨_, h2, h3⟩
  rcases h3 hfin with ⟨h4, h5⟩
  exact ⟨h4, h5, h2⟩

def acts2a : List Act := [.main, .task 0, .task 0, .task 0, .cancel]

def acts2b : List Act := acts2a ++ [.main, .main]

/-- C2 counterexample: the first persisted PageResult is a failure
record, the flag is then set while a second seed is still queued; the
job terminates cancelled with stats persisted, but the `pages` counter
— the "pages fetched" figure of the stats — is 0, not ≥ 1, because
failure results never increment it. -/
theorem C2_counterexample :
    (run sp2 w2 acts2a).results.length = 1 ∧
      (run sp2 w2 acts2a).cancelled = true ∧
      (run sp2 w2 acts2a).mainPc = .loop ∧
      (run sp2 w2 acts2b).status = .cancelled ∧
      (run sp2 w2 acts2b).stats = some ⟨0, 1, 0⟩ ∧
      (run sp2 w2 acts2b).pages = 0 := by
  refine ⟨?_, ?_, ?_, ?_, ?_, ?_⟩ <;> decide

theorem C2_cancel_after_result_terminates_cancelled_witness :
    (run sp2 w2 acts2b).status = .cancelled ∧
      ((run sp2 w2 acts2b).stats).isSome = true ∧
      1 ≤ (run sp2 w2 acts2b).results.length :=
  C2_cancel_after_result_terminates_cancelled sp2 w2 acts2a [.main, .main]
    (by decide) (by decide) (by decide) (by decide)

/-! ## Claim C8: semaphore slot accounting -/

/-- A task holds an admission slot exactly from a successful
`sem.acquire` to the `finally: sem.release()`. -/
def holding (t : CrawlTask) : Bool :=
  match t.pc with
  | .robotsWait => true
  | .fetchWait => true
  | .insertWait _ _ => true
  | _ => false

def heldSlots (s : St) : Nat := s.tasks.countP holding

theorem mem_of_getElem?_task {l : List CrawlTask} {i : Nat} {t : CrawlTask}
    (h : l[i]? = some t) : t ∈ l := by
  rcases List.getElem?_eq_some.mp h with ⟨hl, hv⟩
  exact hv ▸ List.getElem_mem hl

@[simp] theorem holding_set_done (t : CrawlTask) :
    holding { t with pc := Pc.done } = false := rfl

@[simp] theorem holding_set_waitSem (t : CrawlTask) :
    holding { t with pc := Pc.waitSem } = false := rfl

@[simp] theorem holding_set_robotsWait (t : CrawlTask) :
    holding { t with pc := Pc.robotsWait } = true := rfl

@[simp] theorem holding_set_fetchWait (t : CrawlTask) :
    holding { t with pc := Pc.fetchWait } = true := rfl

@[simp] theorem holding_set_insertWait (t : CrawlTask) (rec : PageRecord)
    (isOk : Bool) : holding { t with pc := Pc.insertWait rec isOk } = true :=
  rfl

/-- Replacing a task by one with the same holding status keeps the
held-slot count and the free slots. -/
theorem semInv_setTask (s : St) (i : Nat) (t x : CrawlTask)
    (ht : s.tasks[i]? = some t) (hx : holding x = holding t) :
    (setTask s i x).semAvail + heldSlots (setTask s i x)
      = s.semAvail + heldSlots s := by
  have h1 := countP_set_of_getElem? holding x ht
  rw [hx] at h1
  simp only [setTask, heldSlots]
  omega

theorem semInv_afterAcquire (sp : SpecC) (w : World) (s : St) (i : Nat)
    (t : CrawlTask) (ht : s.tasks[i]? = some t) (hh : holding t = false) :
    (afterAcquire sp w s i t).semAvail + heldSlots (afterAcquire sp w s i t)
      = s.semAvail + heldSlots s + 1 := by
  unfold afterAcquire
  split
  · split
    · split
      · have h1 := countP_set_of_getElem? holding { t with pc := Pc.fetchWait } ht
        rw [hh] at h1
        simp at h1
        simp [goFetch, heldSlots]
        omega
      · have h1 := countP_set_of_getElem? holding { t with pc := Pc.done } ht
        rw [hh] at h1
        simp at h1
        simp [releaseDone, heldSlots]
        omega
    · have h1 := countP_set_of_getElem? holding { t with pc := Pc.robotsWait } ht
      rw [hh] at h1
      simp at h1
      simp [heldSlots]
      omega
  · have h1 := countP_set_of_getElem? holding { t with pc := Pc.fetchWait } ht
    rw [hh] at h1
    simp at h1
    simp [goFetch, heldSlots]
    omega

theorem semInv_runStart (sp : SpecC) (w : World) (s : St) (i : Nat)
    (t : CrawlTask) (ht : s.tasks[i]? = some t) (hpc : t.pc = .start) :
    (runStart sp w s i t).semAvail + heldSlots (runStart sp w s i t)
      = s.semAvail + heldSlots s := by
  have hh : holding t = false := by simp [holding, hpc]
  unfold runStart
  repeat' split
  all_goals first
    | (exact semInv_setTask s i t _ ht (by rw [hh]; rfl))
    | (exact semInv_setTask { s with seen := t.url :: s.seen } i t _ ht
        (by rw [hh]))
    | (have h1 := semInv_afterAcquire sp w
         { s with seen := t.url :: s.seen, semAvail := s.semAvail - 1 } i t ht hh
       simp [heldSlots] at h1 ⊢
       omega)

/-- A task that holds a slot and releases it restores the balance. -/
theorem semInv_releaseDone (s : St) (i : Nat) (t : CrawlTask)
    (ht : s.tasks[i]? = some t) (hold : holding t = true) :
    (releaseDone s i t).semAvail + heldSlots (releaseDone s i t)
      = s.semAvail + heldSlots s := by
  have h1 := countP_set_of_getElem? holding { t with pc := Pc.done } ht
  rw [hold] at h1
  simp at h1
  simp [releaseDone, heldSlots]
  omega

theorem semInv_stepTask (sp : SpecC) (w : World) (s : St) (i : Nat) :
    (stepTask sp w s i).semAvail + heldSlots (stepTask sp w s i)
      = s.semAvail + heldSlots s := by
  rcases ht : s.tasks[i]? with _ | t
  · simp [stepTask, ht]
  · rcases hpc : t.pc with _ | _ | _ | _ | ⟨rec, isOk⟩ | _
    · simp only [stepTask, ht, hpc]
      exact semInv_runStart sp w s i t ht hpc
    · have hh : holding t = false := by simp [holding, hpc]
      simp only [stepTask, ht, hpc]
      split
      · have h1 := semInv_afterAcquire sp w
          { s with semAvail := s.semAvail - 1 } i t ht hh
        simp [heldSlots] at h1 ⊢
        omega
      · rfl
    · have hh : holding t = true := by simp [holding, hpc]
      simp only [stepTask, ht, hpc]
      unfold stepRobots robotsStore
      repeat' split
      all_goals first
        | (have h1 := countP_set_of_getElem? holding
             { t with pc := Pc.fetchWait } ht
           rw [hh] at h1
           simp at h1
           simp [goFetch, heldSlots]
           omega)
        | (have h1 := countP_set_of_getElem? holding { t with pc := Pc.done } ht
           rw [hh] at h1
           simp at h1
           simp [releaseDone, heldSlots]
           omega)
    · have hh : holding t = true := by simp [holding, hpc]
      simp only [stepTask, ht, hpc]
      unfold stepFetch
      repeat' split
      all_goals exact semInv_setTask s i t _ ht (by rw [hh]; rfl)
    · have hh : holding t = true := by simp [holding, hpc]
      simp only [stepTask, ht, hpc]
      unfold stepInsert
      split
      · exact semInv_releaseDone _ i t ht hh
      · exact semInv_releaseDone _ i t ht hh
    · simp only [stepTask, ht, hpc]

theorem semInv_stepMain (sp : SpecC) (s : St) :
    (stepMain sp s).semAvail + heldSlots (stepMain sp s)
      = s.semAvail + heldSlots s := by
  unfold stepMain
  repeat' split
  all_goals simp [heldSlots, List.countP_append, holding]

theorem allDone_stepTask (sp : SpecC) (w : World) (s : St) (i : Nat)
    (h : allDone s.tasks = true) : stepTask sp w s i = s := by
  rcases ht : s.tasks[i]? with _ | t
  · simp [stepTask, ht]
  · have hd : t.pc = .done := by
      have := List.all_eq_true.mp h t (mem_of_getElem?_task ht)
      exact of_decide_eq_true this
    simp [stepTask, ht, hd]

theorem finished_allDone_step (sp : SpecC) (w : World) (s : St) (a : Act)
    (h : s.mainPc = .finished → allDone s.tasks = true) :
    (step sp w s a).mainPc = .finished →
      allDone (step sp w s a).tasks = true := by
  intro hfin
  cases a with
  | main =>
    rcases stepMain_finished_char sp s hfin with h1 | ⟨_, _⟩
    · have hd := h h1
      show allDone (stepMain sp s).tasks = true
      unfold stepMain
      rw [h1]
      exact hd
    · show allDone (stepMain sp s).tasks = true
      have hfin2 : (stepMain sp s).mainPc = .finished := hfin
      unfold stepMain at hfin2 ⊢
      cases hm : s.mainPc with
      | loop =>
        exfalso
        rw [hm] at hfin2
        rcases hq : s.q with _ | ⟨⟨u, d⟩, rest⟩ <;> rw [hq] at hfin2
        · simp at hfin2
        · repeat' split at hfin2
          all_goals simp_all
      | gathering =>
        by_cases hd : allDone s.tasks
        · simp only [hd, if_true]
        · exfalso
          simp [hd, hm] at hfin2
      | finished => exact h hm
  | task i =>
    have h1 : (stepTask sp w s i).mainPc = s.mainPc :=
      (stepTask_ctrl sp w s i).1
    have hfin' : (stepTask sp w s i).mainPc = .finished := hfin
    rw [h1] at hfin'
    have hd := h hfin'
    show allDone (stepTask sp w s i).tasks = true
    rw [allDone_stepTask sp w s i hd]
    exact hd
  | tick => exact h hfin
  | cancel => exact h hfin

/-- C8: in every reachable state the free slots plus the slots held by
tasks between `sem.acquire` and the `finally` release add up to the
configured capacity, so the slots held never exceed the capacity; and
when the controller has reached its terminal state no slot is held and
all are free again. -/
theorem C8_semaphore_invariant (sp : SpecC) (w : World) (acts : List Act) :
    (run sp w acts).semAvail + heldSlots (run sp w acts)
        = resolveConcurrency sp.concurrency ∧
      heldSlots (run sp w acts) ≤ resolveConcurrency sp.concurrency ∧
      ((run sp w acts).mainPc = .finished →
        heldSlots (run sp w acts) = 0 ∧
          (run sp w acts).semAvail = resolveConcurrency sp.concurrency) := by
  have hsum : (run sp w acts).semAvail + heldSlots (run sp w acts)
      = resolveConcurrency sp.concurrency := by
    have h := foldl_invariant sp w
      (fun s => s.semAvail + heldSlots s = resolveConcurrency sp.concurrency)
      (fun s a hs => by
        cases a with
        | main => rw [show step sp w s .main = stepMain sp s from rfl,
            semInv_stepMain]; exact hs
        | task i => rw [show step sp w s (.task i) = stepTask sp w s i from rfl,
            semInv_stepTask]; exact hs
        | tick => exact hs
        | cancel => exact hs)
      acts (initSt sp) (by simp [initSt, heldSlots])
    exact h
  have hfin : (run sp w acts).mainPc = .finished →
      allDone (run sp w acts).tasks = true := by
    have h := foldl_invariant sp w
      (fun s => s.mainPc = .finished → allDone s.tasks = true)
      (fun s a hs => finished_allDone_step sp w s a hs)
      acts (initSt sp) (by intro h; simp [initSt, allDone])
    exact h
  refine ⟨hsum, by omega, ?_⟩
  intro hf
  have hd := hfin hf
  have hz : heldSlots (run sp w acts) = 0 := by
    unfold heldSlots
    rw [List.countP_eq_zero]
    intro t htm
    have := List.all_eq_true.mp hd t htm
    have hdone : t.pc = .done := of_decide_eq_true this
    simp [holding, hdone]
  exact ⟨hz, by omega⟩

theorem C8_semaphore_invariant_witness :
    (run sp1 w1 acts1).semAvail + heldSlots (run sp1 w1 acts1) = 2 ∧
      heldSlots (run sp1 w1 acts1) = 0 ∧
      (run sp1 w1 acts1).semAvail = 2 := by
  have h := C8_semaphore_invariant sp1 w1 acts1
  have hf : (run sp1 w1 acts1).mainPc = .finished := by decide
  rcases h with ⟨h1, _, h3⟩
  rcases h3 hf with ⟨h4, h5⟩
  exact ⟨h1, h4, h5⟩

/-! ## Claim C3: no URL fetched twice -/

/-- A task that is admitted (past the seen-mark) but has not yet
started its page fetch: blocked in `sem.acquire` or awaiting the
robots response. -/
def preFetch (u : String) (t : CrawlTask) : Bool :=
  decide (t.url = u) &&
    (decide (t.pc = Pc.waitSem) || decide (t.pc = Pc.robotsWait))

/-- The central counting invariant: for every URL, the number of times
it was handed to the fetch collaborator plus the number of admitted
tasks that may still fetch it is at most one, and both are zero until
the URL is marked seen. -/
def NoDouble (u : String) (s : St) : Prop :=
  s.fetchLog.count u + s.tasks.countP (preFetch u) ≤ 1 ∧
    (u ∉ s.seen →
      s.fetchLog.count u = 0 ∧ s.tasks.countP (preFetch u) = 0)

@[simp] theorem preFetch_set_done (u : String) (t : CrawlTask) :
    preFetch u { t with pc := Pc.done } = false := by simp [preFetch]

@[simp] theorem preFetch_set_fetchWait (u : String) (t : CrawlTask) :
    preFetch u { t with pc := Pc.fetchWait } = false := by simp [preFetch]

@[simp] theorem preFetch_set_insertWait (u : String) (t : CrawlTask)
    (rec : PageRecord) (isOk : Bool) :
    preFetch u { t with pc := Pc.insertWait rec isOk } = false := by
  simp [preFetch]

@[simp] theorem preFetch_set_waitSem (u : String) (t : CrawlTask) :
    preFetch u { t with pc := Pc.waitSem } = decide (t.url = u) := by
  simp [preFetch]

@[simp] theorem preFetch_set_robotsWait (u : String) (t : CrawlTask) :
    preFetch u { t with pc := Pc.robotsWait } = decide (t.url = u) := by
  simp [preFetch]

theorem count_append_one (l : List String) (x u : String) :
    (l ++ [x]).count u = l.count u + (if x = u then 1 else 0) := by
  rw [List.count_append]
  by_cases hx : x = u <;> simp [hx, List.count_cons]

theorem noDouble_releaseDone (s : St) (i : Nat) (t : CrawlTask) (u : String)
    (ht : s.tasks[i]? = some t) (h : NoDouble u s) :
    NoDouble u (releaseDone s i t) := by
  rcases h with ⟨hsum, hseen⟩
  have h1 := countP_set_of_getElem? (preFetch u) { t with pc := Pc.done } ht
  simp at h1
  constructor
  · show s.fetchLog.count u +
      (s.tasks.set i { t with pc := Pc.done }).countP (preFetch u) ≤ 1
    omega
  · intro hu
    rcases hseen hu with ⟨hz1, hz2⟩
    refine ⟨hz1, ?_⟩
    show (s.tasks.set i { t with pc := Pc.done }).countP (preFetch u) = 0
    omega

theorem noDouble_setTask_notPre (s : St) (i : Nat) (t x : CrawlTask)
    (u : String) (ht : s.tasks[i]? = some t)
    (hx : preFetch u x = false) (h : NoDouble u s) :
    NoDouble u (setTask s i x) := by
  rcases h with ⟨hsum, hseen⟩
  have h1 := countP_set_of_getElem? (preFetch u) x ht
  rw [hx] at h1
  simp at h1
  constructor
  · show s.fetchLog.count u + (s.tasks.set i x).countP (preFetch u) ≤ 1
    omega
  · intro hu
    rcases hseen hu with ⟨hz1, hz2⟩
    refine ⟨hz1, ?_⟩
    show (s.tasks.set i x).countP (preFetch u) = 0
    omega

/-- `afterAcquire` coming straight from `runStart`: the task just
marked its URL seen and was never counted as admitted. -/
theorem noDouble_afterAcquire_start (sp : SpecC) (w : World) (s : St)
    (i : Nat) (t : CrawlTask) (u : String) (ht : s.tasks[i]? = some t)
    (hpre : preFetch u t = false)
    (hsum : s.fetchLog.count u + s.tasks.countP (preFetch u) ≤ 1)
    (hz : t.url = u →
      s.fetchLog.count u = 0 ∧ s.tasks.countP (preFetch u) = 0)
    (hmem : t.url = u → u ∈ s.seen)
    (hseen : u ∉ s.seen →
      s.fetchLog.count u = 0 ∧ s.tasks.countP (preFetch u) = 0) :
    NoDouble u (afterAcquire sp w s i t) := by
  have hgoFetch : NoDouble u (goFetch s i t) := by
    have h1 := countP_set_of_getElem? (preFetch u)
      { t with pc := Pc.fetchWait } ht
    rw [hpre] at h1
    simp at h1
    have h2 := count_append_one s.fetchLog t.url u
    constructor
    · show (s.fetchLog ++ [t.url]).count u +
        (s.tasks.set i { t with pc := Pc.fetchWait }).countP (preFetch u) ≤ 1
      by_cases he : t.url = u
      · rcases hz he with ⟨hz1, hz2⟩
        rw [if_pos he] at h2
        omega
      · rw [if_neg he] at h2
        omega
    · intro hu
      rcases hseen hu with ⟨hz1, hz2⟩
      have hne : ¬t.url = u := fun he => hu (hmem he)
      constructor
      · show (s.fetchLog ++ [t.url]).count u = 0
        rw [if_neg hne] at h2
        omega
      · show (s.tasks.set i { t with pc := Pc.fetchWait }).countP (preFetch u) = 0
        omega
  unfold afterAcquire
  split
  · split
    · split
      · exact hgoFetch
      · exact noDouble_releaseDone s i t u ht ⟨hsum, hseen⟩
    · have h1 := countP_set_of_getElem? (preFetch u)
        { t with pc := Pc.robotsWait } ht
      rw [hpre] at h1
      simp at h1
      constructor
      · show s.fetchLog.count u +
          (s.tasks.set i { t with pc := Pc.robotsWait }).countP (preFetch u) ≤ 1
        by_cases he : t.url = u
        · rcases hz he with ⟨hz1, hz2⟩
          rw [if_pos he] at h1
          omega
        · rw [if_neg he] at h1
          omega
      · intro hu
        rcases hseen hu with ⟨hz1, hz2⟩
        have hne : ¬t.url = u := fun he => hu (hmem he)
        refine ⟨hz1, ?_⟩
        show (s.tasks.set i { t with pc := Pc.robotsWait }).countP (preFetch u) = 0
        rw [if_neg hne] at h1
        omega
  · exact hgoFetch

/-- `afterAcquire` or the robots resumption coming from an admitted
task (`waitSem` or `robotsWait`): the task was counted as admitted, so
moving it to the fetch (or dropping it) keeps the balance. -/
theorem noDouble_goFetch_admitted (s : St) (i : Nat) (t : CrawlTask)
    (u : String) (ht : s.tasks[i]? = some t)
    (hpre : preFetch u t = decide (t.url = u))
    (h : NoDouble u s) : NoDouble u (goFetch s i t) := by
  rcases h with ⟨hsum, hseen⟩
  have h1 := countP_set_of_getElem? (preFetch u)
    { t with pc := Pc.fetchWait } ht
  rw [hpre] at h1
  simp at h1
  have h2 := count_append_one s.fetchLog t.url u
  constructor
  · show (s.fetchLog ++ [t.url]).count u +
      (s.tasks.set i { t with pc := Pc.fetchWait }).countP (preFetch u) ≤ 1
    by_cases he : t.url = u
    · rw [if_pos he] at h1 h2
      omega
    · rw [if_neg he] at h1 h2
      omega
  · intro hu
    rcases hseen hu with ⟨hz1, hz2⟩
    have hne : ¬t.url = u := by
      intro he
      have hp : preFetch u t = true := by simp [hpre, he]
      have hq := List.countP_eq_zero.mp hz2 t (mem_of_getElem?_task ht)
      simp_all
    constructor
    · show (s.fetchLog ++ [t.url]).count u = 0
      rw [if_neg hne] at h2
      omega
    · show (s.tasks.set i { t with pc := Pc.fetchWait }).countP (preFetch u) = 0
      rw [if_neg hne] at h1
      omega

theorem noDouble_runStart (sp : SpecC) (w : World) (s : St) (i : Nat)
    (t : CrawlTask) (u : String) (ht : s.tasks[i]? = some t)
    (hpc : t.pc = .start) (h : NoDouble u s) :
    NoDouble u (runStart sp w s i t) := by
  have hpre : preFetch u t = false := by simp [preFetch, hpc]
  unfold runStart
  split
  · exact noDouble_setTask_notPre s i t _ u ht (by simp) h
  · split
    · exact noDouble_setTask_notPre s i t _ u ht (by simp) h
    · split
      · exact noDouble_setTask_notPre s i t _ u ht (by simp) h
      · split
        · exact noDouble_setTask_notPre s i t _ u ht (by simp) h
        · split
          · exact noDouble_setTask_notPre s i t _ u ht (by simp) h
          · split
            · exact noDouble_setTask_notPre s i t _ u ht (by simp) h
            · split
              · exact noDouble_setTask_notPre s i t _ u ht (by simp) h
              · rename_i hcan hnseen hdep hpag hdur hsco hdom
                rcases h with ⟨hsum, hseen⟩
                split
                · -- slot free: afterAcquire on the seen-consed state
                  refine noDouble_afterAcquire_start sp w
                    { s with seen := t.url :: s.seen,
                             semAvail := s.semAvail - 1 } i t u ht hpre
                    hsum ?_ ?_ ?_
                  · intro he
                    exact hseen (by rw [← he]; exact hnseen)
                  · intro he
                    show u ∈ t.url :: s.seen
                    simp [he]
                  · intro hu
                    refine hseen ?_
                    intro hmem
                    exact hu (by
                      show u ∈ t.url :: s.seen
                      simp [hmem])
                · -- no slot: the task becomes an admitted waiter
                  have h1 := countP_set_of_getElem? (preFetch u)
                    { t with pc := Pc.waitSem } ht
                  rw [hpre] at h1
                  simp at h1
                  constructor
                  · show s.fetchLog.count u +
                      ((s.tasks.set i { t with pc := Pc.waitSem }).countP (preFetch u)) ≤ 1
                    by_cases he : t.url = u
                    · rcases hseen (by rw [← he]; exact hnseen) with ⟨hz1, hz2⟩
                      rw [if_pos he] at h1
                      omega
                    · rw [if_neg he] at h1
                      omega
                  · intro hu
                    have hu' : u ∉ s.seen := by
                      intro hmem
                      exact hu (by
                        show u ∈ t.url :: s.seen
                        simp [hmem])
                    rcases hseen hu' with ⟨hz1, hz2⟩
                    refine ⟨hz1, ?_⟩
                    have hne : ¬t.url = u := by
                      intro he
                      exact hu (by
                        show u ∈ t.url :: s.seen
                        simp [he])
                    show (s.tasks.set i { t with pc := Pc.waitSem }).countP (preFetch u) = 0
                    rw [if_neg hne] at h1
                    omega

theorem noDouble_stepTask (sp : SpecC) (w : World) (s : St) (i : Nat)
    (u : String) (h : NoDouble u s) : NoDouble u (stepTask sp w s i) := by
  rcases ht : s.tasks[i]? with _ | t
  · simpa [stepTask, ht] using h
  · rcases hpc : t.pc with _ | _ | _ | _ | ⟨rec, isOk⟩ | _
    · simp only [stepTask, ht, hpc]
      exact noDouble_runStart sp w s i t u ht hpc h
    · have hpre : preFetch u t = decide (t.url = u) := by
        simp [preFetch, hpc]
      simp only [stepTask, ht, hpc]
      split
      · -- slot free: afterAcquire from an admitted waiter
        unfold afterAcquire
        split
        · split
          · split
            · exact noDouble_goFetch_admitted _ i t u ht hpre h
            · exact noDouble_releaseDone _ i t u ht h
          · -- cache miss: robotsWait keeps the admitted count
            rcases h with ⟨hsum, hseen⟩
            have h1 := countP_set_of_getElem? (preFetch u)
              { t with pc := Pc.robotsWait } ht
            rw [hpre] at h1
            simp at h1
            constructor
            · show s.fetchLog.count u +
                ((s.tasks.set i { t with pc := Pc.robotsWait }).countP (preFetch u)) ≤ 1
              omega
            · intro hu
              rcases hseen hu with ⟨hz1, hz2⟩
              refine ⟨hz1, ?_⟩
              show (s.tasks.set i { t with pc := Pc.robotsWait }).countP (preFetch u) = 0
              omega
        · exact noDouble_goFetch_admitted _ i t u ht hpre h
      · exact h
    · have hpre : preFetch u t = decide (t.url = u) := by
        simp [preFetch, hpc]
      simp only [stepTask, ht, hpc]
      unfold stepRobots robotsStore
      split
      · split
        · exact noDouble_goFetch_admitted _ i t u ht hpre h
        · exact noDouble_releaseDone _ i t u ht h
      · split
        · exact noDouble_goFetch_admitted _ i t u ht hpre h
        · exact noDouble_releaseDone _ i t u ht h
    · simp only [stepTask, ht, hpc]
      unfold stepFetch
      repeat' split
      all_goals exact noDouble_setTask_notPre s i t _ u ht (by simp) h
    · simp only [stepTask, ht, hpc]
      unfold stepInsert
      split
      · exact noDouble_releaseDone _ i t u ht h
      · exact noDouble_releaseDone _ i t u ht h
    · simpa [stepTask, ht, hpc] using h

theorem noDouble_stepMain (sp : SpecC) (s : St) (u : String)
    (h : NoDouble u s) : NoDouble u (stepMain sp s) := by
  rcases h with ⟨hsum, hseen⟩
  unfold stepMain
  repeat' split
  all_goals
    constructor
  all_goals
    try (intro hu; rcases hseen hu with ⟨hz1, hz2⟩)
  all_goals
    simp_all [List.countP_append, preFetch]

theorem noDouble_run (sp : SpecC) (w : World) (acts : List Act)
    (u : String) : NoDouble u (run sp w acts) := by
  have h := foldl_invariant sp w (NoDouble u)
    (fun s a hs => by
      cases a with
      | main => exact noDouble_stepMain sp s u hs
      | task i => exact noDouble_stepTask sp w s i u hs
      | tick => exact hs
      | cancel => exact hs)
    acts (initSt sp) (by constructor <;> simp [initSt])
  exact h

/-- C3: under every interleaving, no URL is handed to the fetch
collaborator twice within one job — the seen check and the seen mark
sit between two suspension points (crawler.py lines 132-139), so the
first task to claim a URL excludes every other. -/
theorem C3_no_url_fetched_twice (sp : SpecC) (w : World) (acts : List Act) :
    (run sp w acts).fetchLog.Nodup := by
  rw [List.nodup_iff_count_le_one]
  intro u
  have h := (noDouble_run sp w acts u).1
  omega

/-! ## Claim C10: robots-denied URLs leave no trace -/

/-- Every task past its first run and not yet finished has its URL in
the seen set: the URL is marked seen at admission, before the
semaphore, the politeness gate and the fetch. -/
def SeenMarked (s : St) : Prop :=
  ∀ t ∈ s.tasks, t.pc ≠ Pc.start → t.pc ≠ Pc.done → t.url ∈ s.seen

theorem seenMarked_setTask (s : St) (i : Nat) (x : CrawlTask)
    (h : SeenMarked s) (hx : x.pc ≠ Pc.start → x.pc ≠ Pc.done → x.url ∈ s.seen) :
    SeenMarked (setTask s i x) := by
  intro t htm h1 h2
  rcases List.mem_or_eq_of_mem_set htm with hm | he
  · exact h t hm h1 h2
  · subst he
    exact hx h1 h2

theorem seenMarked_afterAcquire (sp : SpecC) (w : World) (s : St) (i : Nat)
    (t : CrawlTask) (h : SeenMarked s) (hmem : t.url ∈ s.seen) :
    SeenMarked (afterAcquire sp w s i t) := by
  unfold afterAcquire
  repeat' split
  all_goals exact seenMarked_setTask s i _ h (fun _ _ => hmem)

theorem seenMarked_runStart (sp : SpecC) (w : World) (s : St) (i : Nat)
    (t : CrawlTask) (h : SeenMarked s) :
    SeenMarked (runStart sp w s i t) := by
  unfold runStart
  repeat' split
  all_goals
    first
      | exact seenMarked_setTask s i _ h (by simp)
      | skip
  · -- acquired: afterAcquire on the seen-consed state
    refine seenMarked_afterAcquire sp w
      { s with seen := t.url :: s.seen, semAvail := s.semAvail - 1 } i t
      ?_ (by simp)
    intro x hxm h1 h2
    show x.url ∈ t.url :: s.seen
    exact List.mem_cons_of_mem _ (h x hxm h1 h2)
  · -- no slot: waitSem on the seen-consed state
    intro x hxm h1 h2
    show x.url ∈ t.url :: s.seen
    rcases List.mem_or_eq_of_mem_set hxm with hm | he
    · exact List.mem_cons_of_mem _ (h x hm h1 h2)
    · subst he
      simp

theorem seenMarked_stepTask (sp : SpecC) (w : World) (s : St) (i : Nat)
    (h : SeenMarked s) : SeenMarked (stepTask sp w s i) := by
  rcases ht : s.tasks[i]? with _ | t
  · simpa [stepTask, ht] using h
  · rcases hpc : t.pc with _ | _ | _ | _ | ⟨rec, isOk⟩ | _
    · simp only [stepTask, ht, hpc]
      exact seenMarked_runStart sp w s i t h
    · simp only [stepTask, ht, hpc]
      split
      · refine seenMarked_afterAcquire sp w
          { s with semAvail := s.semAvail - 1 } i t h ?_
        exact h t (mem_of_getElem?_task ht) (by simp [hpc]) (by simp [hpc])
      · exact h
    · have hmem : t.url ∈ s.seen :=
        h t (mem_of_getElem?_task ht) (by simp [hpc]) (by simp [hpc])
      simp only [stepTask, ht, hpc]
      unfold stepRobots robotsStore
      repeat' split
      all_goals
        exact seenMarked_setTask _ i _ h (fun _ _ => hmem)
    · have hmem : t.url ∈ s.seen :=
        h t (mem_of_getElem?_task ht) (by simp [hpc]) (by simp [hpc])
      simp only [stepTask, ht, hpc]
      unfold stepFetch
      repeat' split
      all_goals exact seenMarked_setTask s i _ h (fun _ _ => hmem)
    · simp only [stepTask, ht, hpc]
      unfold stepInsert
      repeat' split
      all_goals exact seenMarked_setTask _ i _ h (by simp)
    · simpa [stepTask, ht, hpc] using h

theorem seenMarked_stepMain (sp : SpecC) (s : St) (h : SeenMarked s) :
    SeenMarked (stepMain sp s) := by
  unfold stepMain
  repeat' split
  all_goals
    first
      | exact h
      | (intro t htm h1 h2
         rcases List.mem_append.mp htm with hm | hm
         · exact h t hm h1 h2
         · exfalso
           simp at hm
           subst hm
           exact h1 rfl)

/-- The frame invariant of C10: when the robots endpoint always
answers with a nonempty policy whose parsed decision denies `u` for
the job's user agent, then no cache entry is ever anything but that
policy, `u` is never handed to the fetch collaborator, no PageResult
with url `u` is ever persisted, and no task for `u` is ever at or past
the fetch suspension point. -/
def RobotsBlocked (t0 u : String) (s : St) : Prop :=
  (∀ p ∈ s.robotsCache, p.2 = t0) ∧
  u ∉ s.fetchLog ∧
  (∀ r ∈ s.results, r.url ≠ u) ∧
  (∀ t ∈ s.tasks,
    (t.pc = Pc.fetchWait → t.url ≠ u) ∧
    (∀ rec isOk, t.pc = Pc.insertWait rec isOk → t.url ≠ u ∧ rec.url ≠ u))

theorem lookupCache_mem (h : String) (l : List (String × String))
    (v : String) (hl : lookupCache h l = some v) : ∃ p ∈ l, p.2 = v := by
  unfold lookupCache at hl
  rcases hf : l.find? (fun e => e.1 == h) with _ | p
  · rw [hf] at hl
    simp at hl
  · rw [hf] at hl
    simp at hl
    exact ⟨p, List.mem_of_find?_eq_some hf, hl⟩

theorem robotsBlocked_setTask (t0 u : String) (s : St) (i : Nat)
    (x : CrawlTask) (h : RobotsBlocked t0 u s)
    (hx : (x.pc = Pc.fetchWait → x.url ≠ u) ∧
      (∀ rec isOk, x.pc = Pc.insertWait rec isOk → x.url ≠ u ∧ rec.url ≠ u)) :
    RobotsBlocked t0 u (setTask s i x) := by
  rcases h with ⟨h1, h2, h3, h4⟩
  refine ⟨h1, h2, h3, ?_⟩
  intro t htm
  rcases List.mem_or_eq_of_mem_set htm with hm | he
  · exact h4 t hm
  · subst he
    exact hx

theorem robotsBlocked_goFetch (t0 u : String) (s : St) (i : Nat)
    (t : CrawlTask) (h : RobotsBlocked t0 u s) (hne : t.url ≠ u) :
    RobotsBlocked t0 u (goFetch s i t) := by
  rcases h with ⟨h1, h2, h3, h4⟩
  refine ⟨h1, ?_, h3, ?_⟩
  · show u ∉ s.fetchLog ++ [t.url]
    intro hm
    rcases List.mem_append.mp hm with hm | hm
    · exact h2 hm
    · simp at hm
      exact hne hm.symm
  · intro x hxm
    rcases List.mem_or_eq_of_mem_set hxm with hm | he
    · exact h4 x hm
    · subst he
      exact ⟨fun _ => hne, by simp⟩

theorem robotsBlocked_releaseDone (t0 u : String) (s : St) (i : Nat)
    (t : CrawlTask) (h : RobotsBlocked t0 u s) :
    RobotsBlocked t0 u (releaseDone s i t) := by
  rcases h with ⟨h1, h2, h3, h4⟩
  refine ⟨h1, h2, h3, ?_⟩
  intro x hxm
  rcases List.mem_or_eq_of_mem_set hxm with hm | he
  · exact h4 x hm
  · subst he
    exact ⟨by simp, by simp⟩

theorem robotsBlocked_afterAcquire (sp : SpecC) (w : World) (t0 u : String)
    (s : St) (i : Nat) (t : CrawlTask)
    (hrr : sp.respectRobots = true) (hne0 : t0 ≠ "")
    (hdeny : w.robotsDecide t0 sp.userAgent u = false)
    (h : RobotsBlocked t0 u s) :
    RobotsBlocked t0 u (afterAcquire sp w s i t) := by
  unfold afterAcquire
  split
  · split
    case h_1 txt heq =>
      have htxt : txt = t0 := by
        rcases lookupCache_mem (hostOf t.url) s.robotsCache txt heq with
          ⟨p, hpm, hpv⟩
        rw [← hpv]
        exact h.1 p hpm
      split
      case isTrue hall =>
        refine robotsBlocked_goFetch t0 u s i t h ?_
        intro he
        rw [htxt, he] at hall
        unfold is_allowed at hall
        rw [if_neg hne0, hdeny] at hall
        exact absurd hall (by simp)
      case isFalse hall =>
        exact robotsBlocked_releaseDone t0 u s i t h
    case h_2 heq =>
      rcases h with ⟨h1, h2, h3, h4⟩
      refine ⟨h1, h2, h3, ?_⟩
      intro x hxm
      rcases List.mem_or_eq_of_mem_set hxm with hm | he
      · exact h4 x hm
      · subst he
        exact ⟨by simp, by simp⟩
  · case isFalse hr => exact absurd hrr hr

theorem robotsBlocked_stepTask (sp : SpecC) (w : World) (t0 u : String)
    (s : St) (i : Nat)
    (hrr : sp.respectRobots = true)
    (hok : ∀ ru, w.robots ru = Except.ok t0) (hne0 : t0 ≠ "")
    (hdeny : w.robotsDecide t0 sp.userAgent u = false)
    (h : RobotsBlocked t0 u s) :
    RobotsBlocked t0 u (stepTask sp w s i) := by
  rcases ht : s.tasks[i]? with _ | t
  · simpa [stepTask, ht] using h
  · rcases hpc : t.pc with _ | _ | _ | _ | ⟨rec, isOk⟩ | _
    · simp only [stepTask, ht, hpc]
      unfold runStart
      repeat' split
      all_goals
        first
          | exact robotsBlocked_setTask t0 u s i _ h (by simp)
          | exact robotsBlocked_setTask t0 u _ i _ h (by simp)
          | exact robotsBlocked_afterAcquire sp w t0 u _ i t hrr hne0 hdeny h
    · simp only [stepTask, ht, hpc]
      split
      · exact robotsBlocked_afterAcquire sp w t0 u _ i t hrr hne0 hdeny h
      · exact h
    · simp only [stepTask, ht, hpc]
      unfold stepRobots
      simp only [hok (robotsUrl t.url)]
      unfold robotsStore
      have hcons : ∀ p ∈ (hostOf t.url, t0) :: s.robotsCache, p.2 = t0 := by
        intro p hpm
        rcases List.mem_cons.mp hpm with he | hm
        · rw [he]
        · exact h.1 p hm
      split
      case isTrue hall =>
        refine robotsBlocked_goFetch t0 u _ i t ⟨hcons, h.2.1, h.2.2.1, h.2.2.2⟩ ?_
        intro he
        rw [he] at hall
        unfold is_allowed at hall
        rw [if_neg hne0, hdeny] at hall
        exact absurd hall (by simp)
      case isFalse hall =>
        exact robotsBlocked_releaseDone t0 u _ i t
          ⟨hcons, h.2.1, h.2.2.1, h.2.2.2⟩
    · have hne : t.url ≠ u := (h.2.2.2 t (mem_of_getElem?_task ht)).1 hpc
      simp only [stepTask, ht, hpc]
      unfold stepFetch
      repeat' split
      all_goals
        refine robotsBlocked_setTask t0 u s i _ h ⟨by simp, ?_⟩
      all_goals
        intro rec isOk hw
        simp only [Pc.insertWait.injEq] at hw
        refine ⟨hne, ?_⟩
        rw [← hw.1]
        simpa [successRecord, failRecord] using hne
    · have hrecne := (h.2.2.2 t (mem_of_getElem?_task ht)).2 rec isOk hpc
      simp only [stepTask, ht, hpc]
      unfold stepInsert
      have hres : ∀ x ∈ s.results ++ [rec], x.url ≠ u := by
        intro x hxm
        rcases List.mem_append.mp hxm with hm | hm
        · exact h.2.2.1 x hm
        · simp at hm
          rw [hm]
          exact hrecne.2
      split
      · refine robotsBlocked_releaseDone t0 u _ i t ⟨h.1, h.2.1, hres, h.2.2.2⟩
      · refine robotsBlocked_releaseDone t0 u _ i t ⟨h.1, h.2.1, hres, h.2.2.2⟩
    · simpa [stepTask, ht, hpc] using h

theorem robotsBlocked_stepMain (sp : SpecC) (t0 u : String) (s : St)
    (h : RobotsBlocked t0 u s) : RobotsBlocked t0 u (stepMain sp s) := by
  rcases h with ⟨h1, h2, h3, h4⟩
  unfold stepMain
  repeat' split
  all_goals refine ⟨h1, h2, h3, ?_⟩
  all_goals
    first
      | exact h4
      | (intro t htm
         rcases List.mem_append.mp htm with hm | hm
         · exact h4 t hm
         · simp at hm
           rw [hm]
           exact ⟨by simp, by simp⟩)

/-- C10: with robots respected and a robots policy that denies `u` for
the job's user agent (the robots endpoint reachable and its policy
nonempty), no run ever hands `u` to the fetch collaborator, never
persists a PageResult for `u`, and every task past admission has its
URL already in the seen set — so a robots-disallowed URL is marked
seen, leaves the results store unchanged, and is never fetched or
retried for the rest of the job. -/
theorem C10_robots_denied_frame (sp : SpecC) (w : World) (u t0 : String)
    (acts : List Act)
    (hrr : sp.respectRobots = true)
    (hok : ∀ ru, w.robots ru = Except.ok t0)
    (hne0 : t0 ≠ "")
    (hdeny : w.robotsDecide t0 sp.userAgent u = false) :
    u ∉ (run sp w acts).fetchLog ∧
      (∀ r ∈ (run sp w acts).results, r.url ≠ u) ∧
      (∀ t ∈ (run sp w acts).tasks, t.pc ≠ Pc.start → t.pc ≠ Pc.done →
        t.url ∈ (run sp w acts).seen) := by
  have hb : RobotsBlocked t0 u (run sp w acts) := by
    exact foldl_invariant sp w (RobotsBlocked t0 u)
      (fun s a hs => by
        cases a with
        | main => exact robotsBlocked_stepMain sp t0 u s hs
        | task i =>
          exact robotsBlocked_stepTask sp w t0 u s i hrr hok hne0 hdeny hs
        | tick => exact hs
        | cancel => exact hs)
      acts (initSt sp) (by
        refine ⟨?_, ?_, ?_, ?_⟩ <;> simp [initSt])
  have hs : SeenMarked (run sp w acts) := by
    exact foldl_invariant sp w SeenMarked
      (fun s a hs => by
        cases a with
        | main => exact seenMarked_stepMain sp s hs
        | task i => exact seenMarked_stepTask sp w s i hs
        | tick => exact hs
        | cancel => exact hs)
      acts (initSt sp) (by intro t htm; simp [initSt] at htm)
  exact ⟨hb.2.1, hb.2.2.1, hs⟩

def sp10 : SpecC :=
  { seeds := ["h://a/"], allow := [], deny := [], maxDepth := none
    maxPages := none, maxDuration := none, concurrency := some 2
    userAgent := "ua", respectRobots := true, sameDomainOnly := true }

def w10 : World :=
  { fetch := fun _ => .ok ⟨"", ""⟩
    robots := fun _ => .ok "T"
    robotsDecide := fun _ _ _ => false
    anchors := fun _ => []
    titleOf := fun _ => none
    textOf := fun _ => none
    extractSel := fun _ => [] }

def acts10 : List Act := [.main, .task 0, .task 0, .main, .main]

theorem C10_robots_denied_frame_witness :
    ("h://a/") ∉ (run sp10 w10 acts10).fetchLog ∧
      (run sp10 w10 acts10).results.length = 0 ∧
      ("h://a/") ∈ (run sp10 w10 acts10).seen ∧
      (run sp10 w10 acts10).mainPc = MainPc.finished := by
  have h := C10_robots_denied_frame sp10 w10 ("h://a/") ("T") acts10 rfl
    (fun ru => rfl) (by decide) rfl
  exact ⟨h.1, by decide, by decide, by decide⟩

/-! ## Claim C9: frontier URL normalization -/

theorem takeWhile_append_all {p : Char → Bool} (l1 l2 : List Char)
    (h : ∀ c ∈ l1, p c = true) :
    (l1 ++ l2).takeWhile p = l1 ++ l2.takeWhile p := by
  induction l1 with
  | nil => rfl
  | cons a l ih =>
    have hrest := ih fun c hc => h c (List.mem_cons_of_mem a hc)
    have ha := h a (List.mem_cons_self a l)
    simp only [List.cons_append, List.takeWhile_cons, ha, if_true, hrest]

theorem dropWhile_append_all {p : Char → Bool} (l1 l2 : List Char)
    (h : ∀ c ∈ l1, p c = true) :
    (l1 ++ l2).dropWhile p = l2.dropWhile p := by
  induction l1 with
  | nil => rfl
  | cons a l ih =>
    have hrest := ih fun c hc => h c (List.mem_cons_of_mem a hc)
    have ha := h a (List.mem_cons_self a l)
    simp only [List.cons_append, List.dropWhile_cons, ha, if_true, hrest]

theorem dropWhile_append_mid (p : Char → Bool) (l1 l2 : List Char) (x : Char)
    (hx : p x = false) :
    ∃ y, (l1 ++ x :: l2).dropWhile p = y ++ x :: l2 := by
  induction l1 with
  | nil => exact ⟨[], by simp [List.dropWhile_cons, hx]⟩
  | cons a l ih =>
    by_cases ha : p a = true
    · rcases ih with ⟨y, hy⟩
      exact ⟨y, by simp [List.dropWhile_cons, ha, hy]⟩
    · refine ⟨a :: l, ?_⟩
      have ha' : p a = false := by
        cases hpa : p a
        · rfl
        · exact absurd hpa ha
      simp [List.dropWhile_cons, ha']

theorem schemeChar_colon : schemeChar ':' = false := by decide

@[simp] theorem data_mk (l : List Char) : (String.mk l).data = l := rfl

theorem schemeChar_ne_hash {c : Char} (h : schemeChar c = true) : ¬c = '#' := by
  intro he
  subst he
  exact absurd h (by decide)

theorem splitScheme_shape (pre r : List Char) (hne : pre ≠ [])
    (hp : ∀ c ∈ pre, schemeChar c = true) :
    splitScheme (pre ++ ':' :: '/' :: '/' :: r) = some (pre, r) := by
  have hdrop : (pre ++ ':' :: '/' :: '/' :: r).dropWhile schemeChar
      = ':' :: '/' :: '/' :: r := by
    rw [dropWhile_append_all pre _ hp]
    simp [List.dropWhile_cons, schemeChar_colon]
  have htake : (pre ++ ':' :: '/' :: '/' :: r).takeWhile schemeChar
      = pre := by
    rw [takeWhile_append_all pre _ hp]
    simp [List.takeWhile_cons, schemeChar_colon]
  unfold splitScheme
  simp only [hdrop, htake]
  rw [if_neg (by simp [List.isEmpty_iff, hne])]

theorem isAbsolute_dest (u : String) (h : isAbsolute u = true) :
    ∃ pre r, u.data = pre ++ ':' :: '/' :: '/' :: r ∧ pre ≠ [] ∧
      ∀ c ∈ pre, schemeChar c = true := by
  unfold isAbsolute splitScheme at h
  split at h
  case h_1 r heq =>
    split at h
    · simp at h
    · refine ⟨u.data.takeWhile schemeChar, r, ?_, ?_, ?_⟩
      · conv_lhs => rw [← List.takeWhile_append_dropWhile (p := schemeChar) (l := u.data)]
        rw [heq]
      · intro he
        rename_i hni
        rw [he] at hni
        exact hni (by rfl)
      · intro c hc
        exact List.mem_takeWhile_imp hc
  case h_2 => simp at h

theorem isAbsolute_of_data_shape (u : String) (pre y : List Char)
    (hu : u.data = pre ++ ':' :: '/' :: '/' :: y) (hne : pre ≠ [])
    (hp : ∀ c ∈ pre, schemeChar c = true) : isAbsolute u = true := by
  unfold isAbsolute
  rw [hu, splitScheme_shape pre y hne hp]
  rfl

theorem noFrag_defrag (u : String) : noFrag (urldefragUrl u) = true := by
  unfold noFrag urldefragUrl
  rw [List.all_eq_true]
  intro c hc
  have := List.mem_takeWhile_imp hc
  simpa using this

theorem defrag_of_noFrag (u : String) (h : noFrag u = true) :
    urldefragUrl u = u := by
  rcases u with ⟨l⟩
  unfold urldefragUrl
  unfold noFrag at h
  rw [List.all_eq_true] at h
  show String.mk (l.takeWhile (fun c => c ≠ '#')) = String.mk l
  rw [List.takeWhile_eq_self_iff.mpr (fun c hc => h c hc)]

theorem isAbsolute_defrag_of_shape (u : String) (pre y : List Char)
    (hu : u.data = pre ++ ':' :: '/' :: '/' :: y) (hne : pre ≠ [])
    (hp : ∀ c ∈ pre, schemeChar c = true) :
    isAbsolute (urldefragUrl u) = true := by
  unfold urldefragUrl
  rw [hu]
  have hshape : pre ++ ':' :: '/' :: '/' :: y
      = (pre ++ [':', '/', '/']) ++ y := by simp
  rw [hshape]
  rw [takeWhile_append_all (pre ++ [':', '/', '/']) y (by
    intro c hc
    rcases List.mem_append.mp hc with hm | hm
    · simp [schemeChar_ne_hash (hp c hm)]
    · simp only [List.mem_cons, List.not_mem_nil, or_false] at hm
      rcases hm with hm | hm | hm <;> simp [hm])]
  refine isAbsolute_of_data_shape _ pre (y.takeWhile (fun c => c ≠ '#')) ?_ hne hp
  show ((pre ++ [':', '/', '/']) ++ y.takeWhile (fun c => c ≠ '#'))
      = pre ++ ':' :: '/' :: '/' :: y.takeWhile (fun c => c ≠ '#')
  simp

theorem schemeOf_of_shape (base : String) (pre r : List Char)
    (hd : base.data = pre ++ ':' :: '/' :: '/' :: r) (hne : pre ≠ [])
    (hp : ∀ c ∈ pre, schemeChar c = true) :
    (schemeOf base).data = pre := by
  unfold schemeOf
  rw [hd, splitScheme_shape pre r hne hp]

theorem dirOf_shape (base : String) (pre r : List Char)
    (hd : base.data = pre ++ ':' :: '/' :: '/' :: r) :
    ∃ x, (dirOf base).data = pre ++ ':' :: '/' :: '/' :: x := by
  unfold dirOf
  rw [hd]
  have hrev : (pre ++ ':' :: '/' :: '/' :: r).reverse
      = r.reverse ++ '/' :: '/' :: ':' :: pre.reverse := by
    simp
  rw [hrev]
  rcases dropWhile_append_mid (fun c => c ≠ '/') r.reverse
      ('/' :: ':' :: pre.reverse) '/' (by decide) with ⟨y, hy⟩
  refine ⟨y.reverse, ?_⟩
  rw [hy]
  show (y ++ '/' :: '/' :: ':' :: pre.reverse).reverse
      = pre ++ ':' :: '/' :: '/' :: y.reverse
  simp

/-- Resolving any href against an absolute fragment-free base and then
stripping the fragment yields an absolute URL. -/
theorem urljoin_defrag_absolute (base href : String)
    (hb : isAbsolute base = true) (hf : noFrag base = true) :
    isAbsolute (urldefragUrl (urljoin base href)) = true := by
  rcases isAbsolute_dest base hb with ⟨pre, r, hd, hne, hp⟩
  unfold urljoin
  split
  · rw [defrag_of_noFrag base hf]
    exact hb
  · split
    · rename_i h2
      rcases isAbsolute_dest href h2 with ⟨pre2, r2, hd2, hne2, hp2⟩
      exact isAbsolute_defrag_of_shape href pre2 r2 hd2 hne2 hp2
    · split
      · rename_i h3
        unfold startsSlashSlash at h3
        split at h3
        case h_1 rest heq =>
          refine isAbsolute_defrag_of_shape _ pre rest ?_ hne hp
          show (schemeOf base ++ ":" ++ href).data = _
          rw [String.data_append, String.data_append,
            schemeOf_of_shape base pre r hd hne hp, heq]
          simp
        case h_2 => simp at h3
      · split
        · refine isAbsolute_defrag_of_shape _ pre
            ((hostOf base).data ++ href.data) ?_ hne hp
          show (originOf base ++ href).data = _
          unfold originOf
          rw [String.data_append, String.data_append, String.data_append,
            schemeOf_of_shape base pre r hd hne hp]
          simp
        · rcases dirOf_shape base pre r hd with ⟨x, hx⟩
          refine isAbsolute_defrag_of_shape _ pre (x ++ href.data) ?_ hne hp
          show (dirOf base ++ href).data = _
          rw [String.data_append, hx]
          simp

/-- Every link `extract_links` produces from an absolute fragment-free
page URL is absolute and fragment-free. -/
theorem extract_links_good (base : String) (hrefs : List String)
    (hb : isAbsolute base = true) (hf : noFrag base = true) :
    ∀ l ∈ extract_links base hrefs,
      isAbsolute l = true ∧ noFrag l = true := by
  intro l hl
  unfold extract_links at hl
  rcases List.mem_filterMap.mp hl with ⟨h0, _, hsome⟩
  split at hsome
  · simp at hsome
  · simp only [Option.some.injEq] at hsome
    rw [← hsome]
    exact ⟨urljoin_defrag_absolute base (pyStrip h0) hb hf,
      noFrag_defrag _⟩

/-- A frontier-eligible URL: absolute with no fragment. -/
def goodU (u : String) : Prop := isAbsolute u = true ∧ noFrag u = true

/-- The C9 invariant: all frontier entries, all task URLs, and all
links of records awaiting persistence are absolute and
fragment-free. -/
def GoodSt (s : St) : Prop :=
  (∀ e ∈ s.q, goodU e.1) ∧
  (∀ t ∈ s.tasks, goodU t.url) ∧
  (∀ t ∈ s.tasks, ∀ rec isOk, t.pc = Pc.insertWait rec isOk →
    ∀ l ∈ rec.links, goodU l)

theorem goodSt_setTask (s : St) (i : Nat) (t x : CrawlTask)
    (_ht : s.tasks[i]? = some t) (h : GoodSt s) (hurl : goodU x.url)
    (hrec : ∀ rec isOk, x.pc = Pc.insertWait rec isOk →
      ∀ l ∈ rec.links, goodU l) :
    GoodSt (setTask s i x) := by
  rcases h with ⟨h1, h2, h3⟩
  refine ⟨h1, ?_, ?_⟩
  · intro y hym
    rcases List.mem_or_eq_of_mem_set hym with hm | he
    · exact h2 y hm
    · subst he
      exact hurl
  · intro y hym
    rcases List.mem_or_eq_of_mem_set hym with hm | he
    · exact h3 y hm
    · subst he
      exact hrec

theorem goodU_of_task (s : St) (i : Nat) (t : CrawlTask)
    (ht : s.tasks[i]? = some t) (h : GoodSt s) : goodU t.url :=
  h.2.1 t (mem_of_getElem?_task ht)

theorem goodSt_afterAcquire (sp : SpecC) (w : World) (s : St) (i : Nat)
    (t : CrawlTask) (ht : s.tasks[i]? = some t) (h : GoodSt s)
    (hu : goodU t.url) : GoodSt (afterAcquire sp w s i t) := by
  unfold afterAcquire
  repeat' split
  all_goals exact goodSt_setTask s i t _ ht h hu (by simp)

theorem goodSt_runStart (sp : SpecC) (w : World) (s : St) (i : Nat)
    (t : CrawlTask) (ht : s.tasks[i]? = some t) (h : GoodSt s) :
    GoodSt (runStart sp w s i t) := by
  have hu := goodU_of_task s i t ht h
  unfold runStart
  repeat' split
  all_goals
    first
      | exact goodSt_setTask s i t _ ht h hu (by simp)
      | exact goodSt_afterAcquire sp w
          { s with seen := t.url :: s.seen, semAvail := s.semAvail - 1 }
          i t ht h hu

theorem goodSt_stepTask (sp : SpecC) (w : World) (s : St) (i : Nat)
    (h : GoodSt s) : GoodSt (stepTask sp w s i) := by
  rcases ht : s.tasks[i]? with _ | t
  · simpa [stepTask, ht] using h
  · have hu := goodU_of_task s i t ht h
    rcases hpc : t.pc with _ | _ | _ | _ | ⟨rec, isOk⟩ | _
    · simp only [stepTask, ht, hpc]
      exact goodSt_runStart sp w s i t ht h
    · simp only [stepTask, ht, hpc]
      split
      · exact goodSt_afterAcquire sp w
          { s with semAvail := s.semAvail - 1 } i t ht h hu
      · exact h
    · simp only [stepTask, ht, hpc]
      unfold stepRobots robotsStore
      repeat' split
      all_goals exact goodSt_setTask _ i t _ ht h hu (by simp)
    · simp only [stepTask, ht, hpc]
      unfold stepFetch
      split
      case h_1 pg heq =>
        refine goodSt_setTask s i t _ ht h hu ?_
        intro rec isOk hw
        simp only [Pc.insertWait.injEq] at hw
        rw [← hw.1]
        intro l hlm
        simp only [successRecord] at hlm
        exact extract_links_good t.url (w.anchors pg.html) hu.1 hu.2 l hlm
      case h_2 m heq =>
        refine goodSt_setTask s i t _ ht h hu ?_
        intro rec isOk hw
        simp only [Pc.insertWait.injEq] at hw
        rw [← hw.1]
        intro l hlm
        simp [failRecord] at hlm
      case h_3 m heq =>
        refine goodSt_setTask s i t _ ht h hu ?_
        intro rec isOk hw
        simp only [Pc.insertWait.injEq] at hw
        rw [← hw.1]
        intro l hlm
        simp [failRecord] at hlm
    · have hlinks : ∀ l ∈ rec.links, goodU l :=
        h.2.2 t (mem_of_getElem?_task ht) rec isOk hpc
      simp only [stepTask, ht, hpc]
      unfold stepInsert
      split
      · rcases h with ⟨h1, h2, h3⟩
        refine ⟨?_, ?_, ?_⟩
        · intro e hem
          rcases List.mem_append.mp hem with hm | hm
          · exact h1 e hm
          · rcases List.mem_map.mp hm with ⟨l, hlm, he⟩
            rw [← he]
            exact hlinks l (List.mem_of_mem_filter hlm)
        · intro y hym
          rcases List.mem_or_eq_of_mem_set hym with hm | he
          · exact h2 y hm
          · subst he
            exact hu
        · intro y hym
          rcases List.mem_or_eq_of_mem_set hym with hm | he
          · exact h3 y hm
          · subst he
            intro rec2 isOk2 hw
            simp at hw
      · exact goodSt_setTask _ i t _ ht h hu (by simp)
    · simpa [stepTask, ht, hpc] using h

theorem goodSt_stepMain (sp : SpecC) (s : St) (h : GoodSt s) :
    GoodSt (stepMain sp s) := by
  rcases h with ⟨h1, h2, h3⟩
  unfold stepMain
  repeat' split
  all_goals refine ⟨?_, ?_, ?_⟩
  all_goals
    first
      | exact h1
      | exact h2
      | exact h3
      | (intro e hem
         exact h1 e (by
           rename_i hq _ _ _
           rw [hq]
           exact List.mem_cons_of_mem _ hem))
      | (intro y hym
         rcases List.mem_append.mp hym with hm | hm
         · exact h2 y hm
         · simp only [List.mem_singleton] at hm
           subst hm
           rename_i hq _ _ _
           exact h1 _ (by rw [hq]; exact List.mem_cons_self _ _))
      | (intro y hym
         rcases List.mem_append.mp hym with hm | hm
         · exact h3 y hm
         · simp only [List.mem_singleton] at hm
           subst hm
           intro rec isOk hw
           simp at hw)

/-- C9, amended.  When every seed URL is absolute and fragment-free,
every frontier entry ever enqueued is absolute and fragment-free —
discovered links are resolved against the page URL and
fragment-stripped before enqueue.  Seeds themselves however enter the
frontier verbatim (second conjunct), with no normalization applied;
see the counterexample for a seed carrying a fragment. -/
theorem C9_frontier_normalized (sp : SpecC) (w : World) (acts : List Act)
    (hseeds : ∀ s0 ∈ sp.seeds, isAbsolute s0 = true ∧ noFrag s0 = true) :
    (∀ e ∈ (run sp w acts).q,
        isAbsolute e.1 = true ∧ noFrag e.1 = true) ∧
      (run sp w []).q = sp.seeds.map (fun s0 => (s0, 0)) := by
  refine ⟨?_, rfl⟩
  have h : GoodSt (run sp w acts) := by
    exact foldl_invariant sp w GoodSt
      (fun s a hs => by
        cases a with
        | main => exact goodSt_stepMain sp s hs
        | task i => exact goodSt_stepTask sp w s i hs
        | tick => exact hs
        | cancel => exact hs)
      acts (initSt sp) (by
        refine ⟨?_, ?_, ?_⟩
        · intro e hem
          simp only [initSt] at hem
          rcases List.mem_map.mp hem with ⟨s0, hs0, he⟩
          rw [← he]
          exact hseeds s0 hs0
        · intro t htm
          simp [initSt] at htm
        · intro t htm
          simp [initSt] at htm)
  exact h.1

/-- A seed given with a fragment. -/
def sp9 : SpecC :=
  { seeds := ["h://a/x#f"], allow := [], deny := [], maxDepth := none
    maxPages := none, maxDuration := none, concurrency := some 2
    userAgent := "ua", respectRobots := false, sameDomainOnly := true }

/-- C9 counterexample: the seed is enqueued verbatim, so the initial
frontier holds an entry whose URL still carries its fragment — seed
entries are not normalized. -/
theorem C9_counterexample :
    (run sp9 w1 []).q = [("h://a/x#f", 0)] ∧
      noFrag ("h://a/x#f") = false := by
  refine ⟨?_, ?_⟩ <;> decide

theorem C9_frontier_normalized_witness :
    isAbsolute ("h://s/p") = true ∧ noFrag ("h://s/p") = true :=
  (C9_frontier_normalized sp4 w4 acts4 (fun s0 hs0 => by
    simp only [sp4, List.mem_singleton] at hs0
    subst hs0
    exact ⟨by decide, by decide⟩)).1 ("h://s/p", 1) (by decide)

/-- C7: `in_scope` returns false on any deny match; with an empty
allow list it returns true; otherwise it returns true exactly when
some allow pattern matches — deny dominates allow. -/
theorem C7_in_scope_deny_dominates (url : String)
    (allow deny : List (String → Bool)) :
    in_scope url allow deny = true ↔
      ((∀ d ∈ deny, d url = false) ∧
        (allow = [] ∨ ∃ a ∈ allow, a url = true)) := by
  unfold in_scope
  by_cases hd : deny.any (fun d => d url) = true
  · rcases List.any_eq_true.mp hd with ⟨d, hdm, hdu⟩
    simp only [hd, if_true]
    constructor
    · intro h; exact absurd h (by simp)
    · rintro ⟨hall, _⟩
      have := hall d hdm
      rw [this] at hdu
      exact absurd hdu (by simp)
  · have hd' : ∀ d ∈ deny, d url = false := by
      intro d hdm
      by_contra hne
      exact hd (List.any_eq_true.mpr ⟨d, hdm, by
        cases h : d url with
        | true => rfl
        | false => exact absurd h hne⟩)
    simp only [Bool.not_eq_true] at hd
    simp only [hd, if_false]
    by_cases ha : allow.isEmpty
    · simp only [ha, if_true]
      constructor
      · intro _; exact ⟨hd', Or.inl (List.isEmpty_iff.mp ha)⟩
      · intro _; rfl
    · simp only [ha, if_false]
      constructor
      · intro h
        exact ⟨hd', Or.inr (List.any_eq_true.mp h)⟩
      · rintro ⟨_, hall | ⟨a, ham, hau⟩⟩
        · exact absurd (List.isEmpty_iff.mpr hall) ha
        · exact List.any_eq_true.mpr ⟨a, ham, hau⟩

end Crawl
